import Mathlib

/-!
cscopy: dump and restore of a column-store table.

A shallow embedding of `main.go`: the schema model (`Table`, `TableFromRow`,
`TableFromHeader`, `Table.Serialize`), the row codec (`serializeRow`,
`deserialize`) and the two pipelines (`fetchTable`, `uploadTable`).

Conventions of the embedding.

* A Go `string` is the list of its code points (`GoString`); the strings of
  the model are therefore valid UTF-8 text.  Go compares strings bytewise,
  which on UTF-8 text is the lexicographic order of the code points.
* A Go `int` is the 64-bit one.
* A Go `panic` (and an error that the code turns into a panic) is the
  `error` of `Except Err`.
* The row source (`iter.MapScan`), the line scanner (`bufio.Scanner`), the
  output file and the write sink (`sess.ExecuteBatch`) are explicit
  arguments and results.
* The library packages `encoding/json`, `strings` and `sort`, and the JSON
  methods of `gocql.UUID`, are embedded as executable functions, after their
  Go sources.  The decimal text of a `float64` (`strconv`) and the text of a
  `time.Time` are not: they are the fields of `Lib`, and the theorems say what
  they ask of them.
-/

namespace Cscopy

/-! ## Data model -/

/-- Go `string` as the list of its code points. -/
abbrev GoString := List Char

/-- A `float64`, by its IEEE 754 bit pattern (taken modulo `2^64`). -/
structure F64 where
  bits : Nat
deriving DecidableEq, Repr

/-- Exponent field all ones: the value is an infinity or a NaN
(`math.IsInf(f, 0) || math.IsNaN(f)`). -/
def F64.isInfOrNaN (f : F64) : Bool :=
  (f.bits % 2 ^ 64 / 2 ^ 52) % 2 ^ 11 == 2047

/-- A `time.Time`: the seconds since January 1 of year 1, 00:00:00 UTC, the
nanoseconds, and the zone offset; the zero `time.Time` has all three zero. -/
structure GoTime where
  sec : Int
  nsec : Nat
  offset : Int
deriving DecidableEq, Repr

/-- A `gocql.UUID` (`[16]byte`): the list of its bytes. -/
abbrev UUID := List Nat

/-- The dynamic value held by an `interface{}`: the six kinds of the type
switch in `TableFromRow`, the nil interface, and a value of any other dynamic
type, given by the name `reflect.TypeOf` reports and by what `json.Marshal`
makes of it (`none`: an error). -/
inductive Value where
  | bool (b : Bool)
  | int (n : Int)
  | str (s : GoString)
  | float (f : F64)
  | time (t : GoTime)
  | uuid (u : UUID)
  | null
  | other (typeName : GoString) (encoding : Option GoString)
deriving DecidableEq, Repr

/-- A `map[string]interface{}`: its entries, in the order `range` visits them. -/
abbrev Row := List (GoString × Value)

/-- The Go expression `row[k]`: the nil interface when `k` is absent. -/
def Row.get (row : Row) (k : GoString) : Value :=
  (row.lookup k).getD Value.null

/-- The keys of a Go map are distinct. -/
def Row.WF (row : Row) : Prop := (row.map Prod.fst).Nodup

/-- The Go type `Column`. -/
structure Column where
  Name : GoString
  Typ : GoString
deriving DecidableEq, Repr

/-- The Go type `Table`. -/
abbrev Table := List Column

deriving instance DecidableEq for Except

/-- What a panic carries. -/
inductive Err where
  /-- `panic("unsupported export type: " + typeName)` -/
  | unsupportedExportType (typeName : GoString)
  /-- runtime error: nil pointer dereference -/
  | nilDereference
  /-- `panic(v)` of `TableFromHeader` -/
  | malformedHeader (field : GoString)
  /-- `panic(err)` with the error of `json.Marshal` -/
  | marshal
  /-- `panic(err)` with the error of `json.Unmarshal` -/
  | unmarshal
  /-- runtime error: index out of range -/
  | indexOutOfRange
  /-- `panic("unsupported import type: " + tp)` -/
  | unsupportedImportType (tp : GoString)
  /-- `panic(err)` with the error of `sess.ExecuteBatch` -/
  | executeBatch
deriving DecidableEq, Repr

/-! ## Package `strings` -/

/-- `strings.Split(s, sep)` for a separator of one character. -/
def Split (s : GoString) (sep : Char) : List GoString := s.splitOn sep

/-- `strings.Join(arr, sep)`. -/
def Join (arr : List GoString) (sep : GoString) : GoString := sep.intercalate arr

/-- `strings.Repeat(s, n)`. -/
def Repeat (s : GoString) (n : Nat) : GoString := (List.replicate n s).flatten

/-! ## Schema model -/

/-- `(*Table).Serialize`. -/
def Table.Serialize (t : Table) : GoString :=
  Join (t.map fun v => v.Name ++ ":".toList ++ v.Typ) ",".toList

/-- `sort.Slice(keys, func(i, j int) bool { return keys[i] < keys[j] })`:
the keys in ascending order. -/
def sortKeys (keys : List GoString) : List GoString :=
  keys.insertionSort (fun a b => a ≤ b)

/-- The type switch of `TableFromRow` on `row[k]`.  For the nil interface
`reflect.TypeOf` returns nil and building the panic message dereferences it. -/
def typeOf (v : Value) : Except Err GoString :=
  match v with
  | .bool _ => .ok "bool".toList
  | .int _ => .ok "int".toList
  | .str _ => .ok "string".toList
  | .float _ => .ok "float".toList
  | .time _ => .ok "time".toList
  | .uuid _ => .ok "uuid".toList
  | .null => .error Err.nilDereference
  | .other typeName _ => .error (Err.unsupportedExportType typeName)

/-- The loop `for _, k := range keys` of `TableFromRow`. -/
def TableFromRow.loop (row : Row) : List GoString → Table → Except Err Table
  | [], table => .ok table
  | k :: ks, table =>
    match typeOf (row.get k) with
    | .error e => .error e
    | .ok t => TableFromRow.loop row ks (table ++ [{ Name := k, Typ := t }])

/-- `TableFromRow`. -/
def TableFromRow (row : Row) : Except Err (Table × List GoString) :=
  let keys := sortKeys (row.map Prod.fst)
  match TableFromRow.loop row keys [] with
  | .error e => .error e
  | .ok table => .ok (table, keys)

/-- The loop `for _, v := range strings.Split(line, ",")` of `TableFromHeader`. -/
def TableFromHeader.loop :
    List GoString → Table → List GoString → Except Err (Table × List GoString)
  | [], table, keys => .ok (table, keys)
  | v :: vs, table, keys =>
    match Split v ':' with
    | [n, t] => TableFromHeader.loop vs (table ++ [{ Name := n, Typ := t }]) (keys ++ [n])
    | _ => .error (Err.malformedHeader v)

/-- `TableFromHeader`. -/
def TableFromHeader (line : GoString) : Except Err (Table × List GoString) :=
  TableFromHeader.loop (Split line ',') [] []

/-! ## Package `encoding/json`: writing -/

/-- The library text formats that are not embedded. -/
structure Lib where
  /-- The decimal text `encoding/json` writes for a finite `float64`
  (`strconv.AppendFloat` with the shortest digits). -/
  formatFloat : F64 → GoString
  /-- `strconv.ParseFloat(s, 64)`; `none` is an error. -/
  parseFloat : GoString → Option F64
  /-- The text `time.Time.MarshalJSON` writes between the quotes (RFC 3339:
  digits, letters and punctuation that JSON does not escape); `none` is an
  error (a year outside 0..9999). -/
  formatTime : GoTime → Option GoString
  /-- What `(*time.Time).UnmarshalJSON` makes of the text between the quotes;
  `none` is an error. -/
  parseTime : GoString → Option GoTime

/-- The digit `hex[n]` of `"0123456789abcdef"`. -/
def hexDigit (n : Nat) : Char := "0123456789abcdef".toList.getD n '0'

/-- The decimal digit `d` as a character. -/
def digitChar (d : Nat) : Char := "0123456789".toList.getD d '0'

/-- The decimal digits of `n`, last digit first; `fuel` bounds their number. -/
def digitsRev : Nat → Nat → List Nat
  | 0, _ => []
  | fuel + 1, n => if n < 10 then [n] else n % 10 :: digitsRev fuel (n / 10)

/-- `strconv.AppendUint(b, n, 10)`. -/
def formatNat (n : Nat) : GoString := (digitsRev (n + 1) n).reverse.map digitChar

/-- `strconv.AppendInt(b, n, 10)`. -/
def formatInt (n : Int) : GoString :=
  if n < 0 then '-' :: formatNat n.natAbs else formatNat n.natAbs

/-- What `appendString` (with HTML escaping, as `json.Marshal` has it) writes
for one character of a string.  (Backspace and form feed are written `\b` and
`\f` since Go 1.22, and with `\u00..` before; `unquote` reads both.) -/
def appendChar (c : Char) : GoString :=
  if c = '\\' ∨ c = '"' then ['\\', c]
  else if c = Char.ofNat 8 then ['\\', 'b']
  else if c = Char.ofNat 12 then ['\\', 'f']
  else if c = '\n' then ['\\', 'n']
  else if c = '\r' then ['\\', 'r']
  else if c = '\t' then ['\\', 't']
  else if c.toNat < 32 ∨ c = '<' ∨ c = '>' ∨ c = '&' then
    ['\\', 'u', '0', '0', hexDigit (c.toNat / 16), hexDigit (c.toNat % 16)]
  else if c.toNat = 8232 ∨ c.toNat = 8233 then
    ['\\', 'u', '2', '0', '2', hexDigit (c.toNat % 16)]
  else [c]

/-- The JSON string literal `appendString` writes for `s`. -/
def appendString (s : GoString) : GoString :=
  '"' :: (s.flatMap appendChar ++ ['"'])

/-- The two hexadecimal digits of a byte. -/
def hexByte (b : Nat) : GoString := [hexDigit (b / 16 % 16), hexDigit (b % 16)]

/-- `gocql.UUID.String`: the bytes in hexadecimal, hyphens after the bytes
4, 6, 8 and 10. -/
def UUID.String (u : UUID) : GoString :=
  (u.take 4).flatMap hexByte ++ '-' :: ((u.drop 4).take 2).flatMap hexByte
    ++ '-' :: ((u.drop 6).take 2).flatMap hexByte
    ++ '-' :: ((u.drop 8).take 2).flatMap hexByte
    ++ '-' :: ((u.drop 10).take 6).flatMap hexByte

/-- The encoding `json.Marshal` gives one element of a `[]interface{}`;
`none` is an error. -/
def marshalValue (L : Lib) (v : Value) : Option GoString :=
  match v with
  | .bool b => some (if b then "true".toList else "false".toList)
  | .int n => some (formatInt n)
  | .str s => some (appendString s)
  | .float f => if f.isInfOrNaN then none else some (L.formatFloat f)
  | .time t =>
    match L.formatTime t with
    | none => none
    | some s => some ('"' :: (s ++ ['"']))
  | .uuid u => some ('"' :: (u.String ++ ['"']))
  | .null => some "null".toList
  | .other _ encoding => encoding

/-- The encodings of the elements, in order; `none` as soon as one fails. -/
def marshalValues (L : Lib) : List Value → Option (List GoString)
  | [] => some []
  | v :: vs =>
    match marshalValue L v with
    | none => none
    | some e =>
      match marshalValues L vs with
      | none => none
      | some es => some (e :: es)

/-- `json.Marshal(vals)` for a non-nil `[]interface{}`. -/
def Marshal (L : Lib) (vals : List Value) : Option GoString :=
  match marshalValues L vals with
  | none => none
  | some es => some ('[' :: (Join es ",".toList ++ [']']))

/-- `serializeRow`. -/
def serializeRow (L : Lib) (row : Row) (keys : List GoString) : Except Err GoString :=
  match Marshal L (keys.map row.get) with
  | none => .error Err.marshal
  | some data => .ok data

/-! ## Package `encoding/json`: reading -/

/-- JSON white space. -/
def isSpace (c : Char) : Bool := c = ' ' || c = '\t' || c = '\r' || c = '\n'

/-- A decimal digit. -/
def isDigit (c : Char) : Bool := 48 ≤ c.toNat && c.toNat ≤ 57

/-- The value of a hexadecimal digit, of either case. -/
def hexVal (c : Char) : Option Nat :=
  if 48 ≤ c.toNat ∧ c.toNat ≤ 57 then some (c.toNat - 48)
  else if 97 ≤ c.toNat ∧ c.toNat ≤ 102 then some (c.toNat - 87)
  else if 65 ≤ c.toNat ∧ c.toNat ≤ 70 then some (c.toNat - 55)
  else none

/-- The input after its leading white space. -/
def skipSpace (s : GoString) : GoString := s.dropWhile isSpace

/-- The input after its leading digits. -/
def skipDigits (s : GoString) : GoString := s.dropWhile isDigit

/-- The scanner after the integer part and the fraction of a number: an
optional exponent.  The result is the input that follows the number. -/
def scanExp (s : GoString) : Option GoString :=
  match s with
  | [] => some []
  | c :: r =>
    if c = 'e' ∨ c = 'E' then
      match r with
      | [] => none
      | d :: r1 =>
        if d = '+' ∨ d = '-' then
          match r1 with
          | [] => none
          | d1 :: r2 => if isDigit d1 then some (skipDigits r2) else none
        else if isDigit d then some (skipDigits r1) else none
    else some s

/-- The scanner after the integer part of a number: an optional fraction,
then `scanExp`. -/
def scanFrac (s : GoString) : Option GoString :=
  match s with
  | [] => some []
  | c :: r =>
    if c = '.' then
      match r with
      | [] => none
      | d :: r1 => if isDigit d then scanExp (skipDigits r1) else none
    else scanExp s

/-- The scanner on a number whose sign has been read. -/
def scanUnsigned (s : GoString) : Option GoString :=
  match s with
  | [] => none
  | c :: r =>
    if c = '0' then scanFrac r
    else if isDigit c then scanFrac (skipDigits r)
    else none

/-- The scanner on a JSON number: the input that follows it, `none` when the
input does not start with a number. -/
def scanNumber (s : GoString) : Option GoString :=
  match s with
  | [] => none
  | c :: r => if c = '-' then scanUnsigned r else scanUnsigned s

/-- The states of the scanner inside a string literal: `stateInString`,
`stateInStringEsc`, and `stateInStringEscU` to `stateInStringEscU123` (`u n`:
`n` hexadecimal digits are still to come). -/
inductive StrState where
  | body
  | esc
  | u (n : Nat)

/-- The scanner inside a string literal, from the given state: the input that
follows the closing quote. -/
def scanStr : StrState → GoString → Option GoString
  | _, [] => none
  | StrState.body, c :: r =>
    if c = '"' then some r
    else if c = '\\' then scanStr StrState.esc r
    else if c.toNat < 32 then none
    else scanStr StrState.body r
  | StrState.esc, c :: r =>
    if c = 'u' then scanStr (StrState.u 4) r
    else if c = 'b' ∨ c = 'f' ∨ c = 'n' ∨ c = 'r' ∨ c = 't' ∨ c = '\\' ∨ c = '/' ∨ c = '"' then
      scanStr StrState.body r
    else none
  | StrState.u n, c :: r =>
    if (hexVal c).isSome then
      (if n ≤ 1 then scanStr StrState.body r else scanStr (StrState.u (n - 1)) r)
    else none

/-- The scanner inside a string literal, after the opening quote. -/
def scanString (s : GoString) : Option GoString := scanStr StrState.body s

/-- The nesting of arrays and objects the scanner accepts (`maxNestingDepth`). -/
def maxNestingDepth : Nat := 10000

/-- What the scanner is reading. -/
inductive Mode where
  /-- one value -/
  | value
  /-- the elements of an array, up to its closing bracket -/
  | elems
  /-- the members of an object, up to its closing brace -/
  | members

/-- The scanner of `encoding/json` on input without leading white space: the
input that follows what `mode` asks for, `none` on a syntax error.  `depth` is
the number of arrays and objects that are open; each call spends one unit of
`fuel`. -/
def scan : Nat → Mode → Nat → GoString → Option GoString
  | 0, _, _, _ => none
  | fuel + 1, Mode.value, depth, s =>
    match s with
    | [] => none
    | c :: r =>
      if c = '"' then scanString r
      else if c = '[' then
        if maxNestingDepth ≤ depth then none
        else
          match skipSpace r with
          | [] => none
          | c1 :: r1 => if c1 = ']' then some r1 else scan fuel Mode.elems (depth + 1) (c1 :: r1)
      else if c = '{' then
        if maxNestingDepth ≤ depth then none
        else
          match skipSpace r with
          | [] => none
          | c1 :: r1 => if c1 = '}' then some r1 else scan fuel Mode.members (depth + 1) (c1 :: r1)
      else if c = 't' then
        match r with
        | 'r' :: 'u' :: 'e' :: r1 => some r1
        | _ => none
      else if c = 'f' then
        match r with
        | 'a' :: 'l' :: 's' :: 'e' :: r1 => some r1
        | _ => none
      else if c = 'n' then
        match r with
        | 'u' :: 'l' :: 'l' :: r1 => some r1
        | _ => none
      else scanNumber s
  | fuel + 1, Mode.elems, depth, s =>
    match scan fuel Mode.value depth s with
    | none => none
    | some rest =>
      match skipSpace rest with
      | [] => none
      | c :: r =>
        if c = ',' then scan fuel Mode.elems depth (skipSpace r)
        else if c = ']' then some r
        else none
  | fuel + 1, Mode.members, depth, s =>
    match s with
    | [] => none
    | q :: r0 =>
      if q = '"' then
        match scanString r0 with
        | none => none
        | some afterKey =>
          match skipSpace afterKey with
          | [] => none
          | colon :: r1 =>
            if colon = ':' then
              match scan fuel Mode.value depth (skipSpace r1) with
              | none => none
              | some rest =>
                match skipSpace rest with
                | [] => none
                | c :: r =>
                  if c = ',' then scan fuel Mode.members depth (skipSpace r)
                  else if c = '}' then some r
                  else none
            else none
      else none

/-- The part of `s` that was read when `rest` is what follows. -/
def consumed (s rest : GoString) : GoString := s.take (s.length - rest.length)

/-- The elements of an array as `json.RawMessage`s, read after the opening
bracket on input without leading white space, and the input that follows the
closing bracket. -/
def rawElems : Nat → GoString → Option (List GoString × GoString)
  | 0, _ => none
  | fuel + 1, s =>
    match scan (2 * s.length + 2) Mode.value 1 s with
    | none => none
    | some rest =>
      match skipSpace rest with
      | [] => none
      | c :: r =>
        if c = ',' then
          match rawElems fuel (skipSpace r) with
          | none => none
          | some (es, r1) => some (consumed s rest :: es, r1)
        else if c = ']' then some ([consumed s rest], r)
        else none

/-- `json.Unmarshal(line, &arr)` for `arr` a nil `[]json.RawMessage`: the
elements of the array, no element for `null` (which leaves `arr` nil), and
`none` for an error: invalid JSON, or a value that is no array. -/
def unmarshalRawArray (line : GoString) : Option (List GoString) :=
  match skipSpace line with
  | [] => none
  | c :: r =>
    if c = '[' then
      match skipSpace r with
      | [] => none
      | c1 :: r1 =>
        if c1 = ']' then (if skipSpace r1 = [] then some [] else none)
        else
          match rawElems (line.length + 1) (c1 :: r1) with
          | none => none
          | some (es, rest) => if skipSpace rest = [] then some es else none
    else if c = 'n' then
      match r with
      | 'u' :: 'l' :: 'l' :: r1 => if skipSpace r1 = [] then some [] else none
      | _ => none
    else none

/-- The number four hexadecimal digits write (`getu4`). -/
def hex4 (h1 h2 h3 h4 : Char) : Option Nat :=
  match hexVal h1, hexVal h2, hexVal h3, hexVal h4 with
  | some a, some b, some c, some d => some (((a * 16 + b) * 16 + c) * 16 + d)
  | _, _, _, _ => none

/-- The character `c` in front of a result. -/
def consTo (c : Char) (r : Option GoString) : Option GoString := r.map fun t => c :: t

/-- `unicode.ReplacementChar`, U+FFFD. -/
def replacementChar : Char := Char.ofNat 65533

/-- The escape that follows a backslash in `unquote`: the character it stands
for and the number of characters it takes after the backslash.  A pair of
surrogate escapes is one character; a lone surrogate is U+FFFD; `none` when it
is no escape. -/
def unquoteEscape (r : GoString) : Option (Char × Nat) :=
  match r with
  | [] => none
  | e :: r1 =>
    if e = 'u' then
      match r1 with
      | h1 :: h2 :: h3 :: h4 :: r2 =>
        match hex4 h1 h2 h3 h4 with
        | none => none
        | some rr =>
          if 55296 ≤ rr ∧ rr < 57344 then
            match r2 with
            | b1 :: b2 :: g1 :: g2 :: g3 :: g4 :: _ =>
              match (if b1 = '\\' ∧ b2 = 'u' then hex4 g1 g2 g3 g4 else none) with
              | none => some (replacementChar, 5)
              | some rr1 =>
                if rr < 56320 ∧ 56320 ≤ rr1 ∧ rr1 < 57344 then
                  some (Char.ofNat ((rr - 55296) * 1024 + (rr1 - 56320) + 65536), 11)
                else some (replacementChar, 5)
            | _ => some (replacementChar, 5)
          else some (Char.ofNat rr, 5)
      | _ => none
    else if e = '"' ∨ e = '\\' ∨ e = '/' ∨ e = Char.ofNat 39 then some (e, 1)
    else if e = 'b' then some (Char.ofNat 8, 1)
    else if e = 'f' then some (Char.ofNat 12, 1)
    else if e = 'n' then some ('\n', 1)
    else if e = 'r' then some ('\r', 1)
    else if e = 't' then some ('\t', 1)
    else none

/-- The loop of `unquote` over what stands between the quotes of a string
literal; `skip` is the number of characters of an escape, already resolved,
that the index still has to pass. -/
def unquoteFrom : Nat → GoString → Option GoString
  | 0, [] => some []
  | _ + 1, [] => none
  | skip + 1, _ :: r => unquoteFrom skip r
  | 0, c :: r =>
    if c = '\\' then
      match unquoteEscape r with
      | none => none
      | some (ch, k) => consTo ch (unquoteFrom k r)
    else if c = '"' ∨ c.toNat < 32 then none
    else consTo c (unquoteFrom 0 r)

/-- `unquote` on what stands between the quotes of a string literal: escapes
are resolved; `none` when it is no string literal. -/
def unquote (s : GoString) : Option GoString := unquoteFrom 0 s

/-- The number a non-empty run of decimal digits writes. -/
def parseNat (s : GoString) : Option Nat :=
  if s ≠ [] ∧ s.all isDigit = true then
    some (s.foldl (fun acc c => acc * 10 + (c.toNat - 48)) 0)
  else none

/-- `strconv.ParseInt(s, 10, 64)`; `none` is an error (syntax or range). -/
def parseInt (s : GoString) : Option Int :=
  match s with
  | [] => none
  | c :: r =>
    if c = '-' then
      match parseNat r with
      | none => none
      | some n => if n ≤ 2 ^ 63 then some (-(n : Int)) else none
    else
      match parseNat (if c = '+' then r else s) with
      | none => none
      | some n => if n < 2 ^ 63 then some (n : Int) else none

/-- The loop of `gocql.ParseUUID`: `j` counts the hexadecimal digits read. -/
def ParseUUID.loop : GoString → Nat → UUID → Option UUID
  | [], j, u => if j = 32 then some u else none
  | r :: rest, j, u =>
    if r = '-' ∧ j % 2 = 0 then ParseUUID.loop rest j u
    else
      match hexVal r with
      | none => none
      | some v =>
        if j < 32 then
          ParseUUID.loop rest (j + 1) (u.set (j / 2) (u.getD (j / 2) 0 ||| v <<< (4 - j % 2 * 4)))
        else none

/-- `gocql.ParseUUID`. -/
def ParseUUID (input : GoString) : Option UUID :=
  ParseUUID.loop input 0 (List.replicate 16 0)

/-- `strings.Trim(s, "\"")`. -/
def trimQuotes (s : GoString) : GoString :=
  ((s.dropWhile fun c => c = '"').reverse.dropWhile fun c => c = '"').reverse

/-- `json.Unmarshal(raw, &x)` for `var x bool`, on a raw message of the array
scan.  A `null` has no effect and leaves the zero value. -/
def unmarshalBool (raw : GoString) : Option Bool :=
  match raw with
  | [] => none
  | c :: _ =>
    if c = 'n' then some false
    else if c = 't' then some true
    else if c = 'f' then some false
    else none

/-- `json.Unmarshal(raw, &x)` for `var x int`. -/
def unmarshalInt (raw : GoString) : Option Int :=
  match raw with
  | [] => none
  | c :: _ =>
    if c = 'n' then some 0
    else if c = '-' ∨ isDigit c = true then parseInt raw
    else none

/-- `json.Unmarshal(raw, &x)` for `var x string`. -/
def unmarshalString (raw : GoString) : Option GoString :=
  match raw with
  | [] => none
  | c :: r =>
    if c = 'n' then some []
    else if c = '"' then unquote r.dropLast
    else none

/-- `json.Unmarshal(raw, &x)` for `var x float64`. -/
def unmarshalFloat (L : Lib) (raw : GoString) : Option F64 :=
  match raw with
  | [] => none
  | c :: _ =>
    if c = 'n' then some { bits := 0 }
    else if c = '-' ∨ isDigit c = true then L.parseFloat raw
    else none

/-- `json.Unmarshal(raw, &x)` for `var x time.Time`: `UnmarshalJSON` ignores
`null` and otherwise wants a string literal, whose inside it parses. -/
def unmarshalTime (L : Lib) (raw : GoString) : Option GoTime :=
  if raw = "null".toList then some { sec := 0, nsec := 0, offset := 0 }
  else
    match raw with
    | [] => none
    | c :: r =>
      if c = '"' ∧ r.getLast? = some '"' then L.parseTime r.dropLast else none

/-- `json.Unmarshal(raw, &x)` for `var x gocql.UUID`: `UnmarshalJSON` trims
the quotes, refuses more than 36 bytes and calls `ParseUUID`.  (A text with a
character outside ASCII is refused by the one or by the other.) -/
def unmarshalUUID (raw : GoString) : Option UUID :=
  if 36 < (trimQuotes raw).length then none else ParseUUID (trimQuotes raw)

/-- One pass of the `switch tp` of `deserialize`: the value appended to
`vals`, or the panic. -/
def unmarshalAs (L : Lib) (tp raw : GoString) : Except Err Value :=
  if tp = "bool".toList then
    match unmarshalBool raw with
    | none => .error Err.unmarshal
    | some x => .ok (Value.bool x)
  else if tp = "int".toList then
    match unmarshalInt raw with
    | none => .error Err.unmarshal
    | some x => .ok (Value.int x)
  else if tp = "string".toList then
    match unmarshalString raw with
    | none => .error Err.unmarshal
    | some x => .ok (Value.str x)
  else if tp = "float".toList then
    match unmarshalFloat L raw with
    | none => .error Err.unmarshal
    | some x => .ok (Value.float x)
  else if tp = "time".toList then
    match unmarshalTime L raw with
    | none => .error Err.unmarshal
    | some x => .ok (Value.time x)
  else if tp = "uuid".toList then
    match unmarshalUUID raw with
    | none => .error Err.unmarshal
    | some x => .ok (Value.uuid x)
  else .error (Err.unsupportedImportType tp)

/-- The loop `for i, v := range arr` of `deserialize`; the values are those
the returned pointers point to. -/
def deserialize.loop (L : Lib) (tbl : Table) :
    Nat → List GoString → List Value → Except Err (List Value)
  | _, [], vals => .ok vals
  | i, v :: rest, vals =>
    match tbl.get? i with
    | none => .error Err.indexOutOfRange
    | some col =>
      match unmarshalAs L col.Typ v with
      | .error e => .error e
      | .ok x => deserialize.loop L tbl (i + 1) rest (vals ++ [x])

/-- `deserialize`. -/
def deserialize (L : Lib) (tbl : Table) (line : GoString) : Except Err (List Value) :=
  match unmarshalRawArray line with
  | none => .error Err.unmarshal
  | some arr => deserialize.loop L tbl 0 arr []

/-! ## Pipelines -/

/-- The loop of `fetchTable` over the rows `iter.MapScan` delivers: what has
been written to the file, and the panic that stopped the run, if any. -/
def fetchTable.loop (L : Lib) :
    List Row → Bool → List GoString → GoString → GoString × Option Err
  | [], _, _, file => (file, none)
  | row :: rows, isHeader, keys, file =>
    match (if isHeader then
        match TableFromRow row with
        | .error e => Except.error e
        | .ok (tbl, keys1) => Except.ok (keys1, file ++ (tbl.Serialize ++ "\n".toList))
      else Except.ok (keys, file)) with
    | .error e => (file, some e)
    | .ok (keys1, file1) =>
      match serializeRow L row keys1 with
      | .error e => (file1, some e)
      | .ok data => fetchTable.loop L rows false keys1 (file1 ++ (data ++ "\n".toList))

/-- `fetchTable` on the rows of the table, writing to an empty file. -/
def fetchTable (L : Lib) (rows : List Row) : GoString × Option Err :=
  fetchTable.loop L rows true [] []

/-- One entry of a `gocql.Batch`: the statement and its arguments. -/
structure Entry where
  query : GoString
  vals : List Value
deriving DecidableEq, Repr

/-- The query `uploadTable` builds from the table name and the keys. -/
def insertQuery (tableName : GoString) (keys : List GoString) : GoString :=
  "insert into ".toList ++ tableName ++ "(".toList ++ Join keys ", ".toList ++ ") ".toList
    ++ "values(".toList ++ Repeat "?, ".toList (keys.length - 1) ++ "?)".toList

/-- The state of the loop of `uploadTable`. -/
structure UploadState where
  isHeader : Bool
  tbl : Table
  query : GoString
  batch : List Entry
  flushed : List (List Entry)

/-- The loop `for s.Scan()` of `uploadTable` over the lines the scanner
delivers.  `exec` tells whether `sess.ExecuteBatch` accepts a batch. -/
def uploadTable.loop (L : Lib) (exec : List Entry → Bool) (tableName : GoString) :
    List GoString → UploadState → Except (List (List Entry) × Err) UploadState
  | [], st => .ok st
  | line :: lines, st =>
    if st.isHeader then
      match TableFromHeader line with
      | .error e => .error (st.flushed, e)
      | .ok (tbl, keys) =>
        uploadTable.loop L exec tableName lines
          { st with tbl := tbl, query := insertQuery tableName keys, isHeader := false }
    else
      match deserialize L st.tbl line with
      | .error e => .error (st.flushed, e)
      | .ok vals =>
        let batch := st.batch ++ [{ query := st.query, vals := vals }]
        if 100 ≤ batch.length then
          if exec batch then
            uploadTable.loop L exec tableName lines
              { st with batch := [], flushed := st.flushed ++ [batch] }
          else .error (st.flushed, Err.executeBatch)
        else uploadTable.loop L exec tableName lines { st with batch := batch }

/-- `uploadTable` on the lines `s.Scan()` delivers: the batches the sink has
executed, in order, and the panic that stopped the run, if any.  (An error of
the scanner itself, reported after the last flush, is outside the model.) -/
def uploadTable (L : Lib) (exec : List Entry → Bool) (tableName : GoString)
    (lines : List GoString) : List (List Entry) × Option Err :=
  match uploadTable.loop L exec tableName lines
      { isHeader := true, tbl := [], query := [], batch := [], flushed := [] } with
  | .error (flushed, e) => (flushed, some e)
  | .ok st =>
    if 0 < st.batch.length then
      if exec st.batch then (st.flushed ++ [st.batch], none)
      else (st.flushed, some Err.executeBatch)
    else (st.flushed, none)

/-! ## Vocabulary of the statements -/

/-- The six type tags `TableFromRow` writes and `deserialize` reads. -/
def sixTypes : List GoString :=
  ["bool".toList, "int".toList, "string".toList, "float".toList, "time".toList,
    "uuid".toList]

/-- The value is of one of the six kinds of the type switch in `TableFromRow`. -/
def Value.supported : Value → Bool
  | .bool _ => true
  | .int _ => true
  | .str _ => true
  | .float _ => true
  | .time _ => true
  | .uuid _ => true
  | .null => false
  | .other _ _ => false

/-- A `Lib` for the examples: the library text formats on the values the
examples use (the floats 1.5 and 0, the time 2020-01-01T00:00:00Z), and
nothing of the library elsewhere. -/
def sampleLib : Lib where
  formatFloat f := if f.bits = 4609434218613702656 then "1.5".toList else "0".toList
  parseFloat s :=
    if s = "1.5".toList then some { bits := 4609434218613702656 }
    else if s = "0".toList then some { bits := 0 }
    else none
  formatTime t :=
    if t = { sec := 63713433600, nsec := 0, offset := 0 } then
      some "2020-01-01T00:00:00Z".toList
    else none
  parseTime s :=
    if s = "2020-01-01T00:00:00Z".toList then
      some { sec := 63713433600, nsec := 0, offset := 0 }
    else none

/-- A NaN of `float64`. -/
def sampleNaN : F64 := { bits := 9221120237041090561 }

/-- A schema of the six supported types. -/
def sampleTable : Table :=
  [{ Name := "active".toList, Typ := "bool".toList },
   { Name := "count".toList, Typ := "int".toList },
   { Name := "id".toList, Typ := "uuid".toList },
   { Name := "name".toList, Typ := "string".toList },
   { Name := "ratio".toList, Typ := "float".toList },
   { Name := "seen".toList, Typ := "time".toList }]

/-- A row of the six supported kinds, in an order that is not the sorted one. -/
def sampleRow : Row :=
  [("name".toList, Value.str "a\"b\nc".toList),
   ("count".toList, Value.int (-42)),
   ("seen".toList, Value.time { sec := 63713433600, nsec := 0, offset := 0 }),
   ("active".toList, Value.bool true),
   ("ratio".toList, Value.float { bits := 4609434218613702656 }),
   ("id".toList, Value.uuid [0, 1, 2, 3, 4, 5, 6, 7, 8, 9, 10, 11, 12, 13, 14, 255])]

end Cscopy

/-! ## Theorems -/

namespace Cscopy

/-! ### Header -/

theorem comma_toList : ",".toList = [','] := rfl

theorem colon_toList : ":".toList = [':'] := rfl

theorem headerLoop_ok (fs : List GoString) :
    ∀ (table : Table) (keys : List GoString) (cols : Table),
      List.Forall₂ (fun f c => Split f ':' = [c.Name, c.Typ]) fs cols →
      TableFromHeader.loop fs table keys
        = .ok (table ++ cols, keys ++ cols.map Column.Name) := by
  induction fs with
  | nil =>
    intro table keys cols h
    cases h
    simp [TableFromHeader.loop]
  | cons f fs ih =>
    intro table keys cols h
    cases h with
    | cons hf hrest =>
      rename_i c cs
      simp only [TableFromHeader.loop, hf]
      rw [ih _ _ _ hrest]
      simp

theorem headerLoop_inv (fs : List GoString) :
    ∀ (table : Table) (keys : List GoString) (tbl : Table) (ks : List GoString),
      TableFromHeader.loop fs table keys = .ok (tbl, ks) →
      ∃ cols, List.Forall₂ (fun f c => Split f ':' = [c.Name, c.Typ]) fs cols
        ∧ tbl = table ++ cols ∧ ks = keys ++ cols.map Column.Name := by
  induction fs with
  | nil =>
    intro table keys tbl ks h
    simp only [TableFromHeader.loop, Except.ok.injEq, Prod.mk.injEq] at h
    exact ⟨[], List.Forall₂.nil, by simp [h.1], by simp [h.2]⟩
  | cons f fs ih =>
    intro table keys tbl ks h
    unfold TableFromHeader.loop at h
    split at h
    · rename_i n t hsplit
      obtain ⟨cols, hcols, h1, h2⟩ := ih _ _ _ _ h
      refine ⟨{ Name := n, Typ := t } :: cols, List.Forall₂.cons hsplit hcols, ?_, ?_⟩
      · simp [h1]
      · simp [h2]
    · cases h

theorem headerLoop_error (fs : List GoString) :
    ∀ (table : Table) (keys : List GoString),
      (∃ f ∈ fs, (Split f ':').length ≠ 2) →
      ∃ e, TableFromHeader.loop fs table keys = .error e := by
  induction fs with
  | nil => intro table keys h; simp at h
  | cons f fs ih =>
    intro table keys h
    unfold TableFromHeader.loop
    split
    · rename_i n t hsplit
      apply ih
      obtain ⟨g, hg, hlen⟩ := h
      rcases List.mem_cons.1 hg with rfl | hg
      · simp [hsplit] at hlen
      · exact ⟨g, hg, hlen⟩
    · exact ⟨_, rfl⟩

theorem exists_cols_of_two_parts (fs : List GoString)
    (h : ∀ f ∈ fs, (Split f ':').length = 2) :
    ∃ cols : Table, List.Forall₂ (fun f c => Split f ':' = [c.Name, c.Typ]) fs cols := by
  induction fs with
  | nil => exact ⟨[], List.Forall₂.nil⟩
  | cons f fs ih =>
    obtain ⟨cols, hcols⟩ := ih fun g hg => h g (List.mem_cons_of_mem _ hg)
    obtain ⟨n, t, hnt⟩ := List.length_eq_two.1 (h f (List.mem_cons_self _ _))
    exact ⟨{ Name := n, Typ := t } :: cols, List.Forall₂.cons hnt hcols⟩

/-- C7. `TableFromHeader` fails exactly when some comma-separated field of the
line does not split on the colon into two parts; when it succeeds, the table
has one column per field, in order, the name being the part before the colon
and the type the part after it, and the keys are the column names in order. -/
theorem TableFromHeader_spec (line : GoString) :
    ((∃ e, TableFromHeader line = .error e)
        ↔ ∃ f ∈ Split line ',', (Split f ':').length ≠ 2)
    ∧ ∀ tbl keys, TableFromHeader line = .ok (tbl, keys) →
        List.Forall₂ (fun f c => Split f ':' = [c.Name, c.Typ]) (Split line ',') tbl
          ∧ keys = tbl.map Column.Name := by
  constructor
  · constructor
    · rintro ⟨e, he⟩
      by_contra hno
      push_neg at hno
      obtain ⟨cols, hcols⟩ := exists_cols_of_two_parts _ hno
      have := headerLoop_ok _ [] [] cols hcols
      unfold TableFromHeader at he
      rw [this] at he
      cases he
    · intro h
      exact headerLoop_error _ [] [] h
  · intro tbl keys h
    obtain ⟨cols, hcols, h1, h2⟩ := headerLoop_inv _ _ _ _ _ h
    simp only [List.nil_append] at h1 h2
    subst h1
    exact ⟨hcols, h2⟩

theorem split_field (n t : GoString) (hn : ':' ∉ n) (ht : ':' ∉ t) :
    Split (n ++ ":".toList ++ t) ':' = [n, t] := by
  have h := List.splitOn_intercalate [n, t] ':'
    (by intro l hl; simp at hl; rcases hl with rfl | rfl <;> assumption) (by simp)
  simpa [Split, List.intercalate, colon_toList] using h

theorem split_serialize (t : Table) (hne : t ≠ [])
    (hclean : ∀ c ∈ t, ',' ∉ c.Name ∧ ',' ∉ c.Typ) :
    Split t.Serialize ',' = t.map fun v => v.Name ++ ":".toList ++ v.Typ := by
  unfold Split Table.Serialize Join
  rw [comma_toList]
  apply List.splitOn_intercalate
  · intro l hl
    obtain ⟨c, hc, rfl⟩ := List.mem_map.1 hl
    have := hclean c hc
    simp [colon_toList, this.1, this.2]
  · simpa using hne

/-- The header of a non-empty table whose names and types hold neither a comma
nor a colon is read back as the table. -/
theorem header_roundtrip (t : Table) (hne : t ≠ [])
    (hclean : ∀ c ∈ t, (',' ∉ c.Name ∧ ':' ∉ c.Name) ∧ (',' ∉ c.Typ ∧ ':' ∉ c.Typ)) :
    TableFromHeader t.Serialize = .ok (t, t.map Column.Name) := by
  unfold TableFromHeader
  rw [split_serialize t hne fun c hc => ⟨(hclean c hc).1.1, (hclean c hc).2.1⟩]
  have h := headerLoop_ok (t.map fun v => v.Name ++ ":".toList ++ v.Typ) [] [] t ?_
  · simpa using h
  · rw [List.forall₂_map_left_iff]
    apply List.forall₂_same.2
    intro c hc
    exact split_field _ _ (hclean c hc).1.2 (hclean c hc).2.2

theorem sixTypes_clean (t : GoString) (h : t ∈ sixTypes) : ',' ∉ t ∧ ':' ∉ t := by
  simp only [sixTypes, List.mem_cons, List.mem_singleton, List.not_mem_nil, or_false] at h
  rcases h with rfl | rfl | rfl | rfl | rfl | rfl <;> decide

/-- C2, the claim as stated fails: the header of the empty schema is the empty
line, which `TableFromHeader` refuses, and so is the header of a schema whose
column name holds a colon. -/
theorem header_symmetry_counterexample :
    TableFromHeader (Table.Serialize []) = .error (Err.malformedHeader [])
    ∧ TableFromHeader (Table.Serialize [{ Name := "a:b".toList, Typ := "int".toList }])
        = .error (Err.malformedHeader "a:b:int".toList) := by
  decide

/-- C2, amended.  For every non-empty schema whose column types are among the
six supported tags and whose column names hold neither a comma nor a colon,
`TableFromHeader` of the serialized header returns the schema, and the keys are
its column names in order. -/
theorem header_symmetry (t : Table) (hne : t ≠ [])
    (htypes : ∀ c ∈ t, c.Typ ∈ sixTypes)
    (hnames : ∀ c ∈ t, ',' ∉ c.Name ∧ ':' ∉ c.Name) :
    TableFromHeader t.Serialize = .ok (t, t.map Column.Name) :=
  header_roundtrip t hne fun c hc => ⟨hnames c hc, sixTypes_clean _ (htypes c hc)⟩

/-- The hypotheses of `header_symmetry` hold on the sample data. -/
theorem header_symmetry_witness :
    TableFromHeader sampleTable.Serialize = .ok (sampleTable, sampleTable.map Column.Name) :=
  header_symmetry sampleTable (by decide) (by decide) (by decide)

/-! ### Schema of a row -/

theorem Row.get_of_mem_keys (row : Row) (k : GoString) (h : k ∈ row.map Prod.fst) :
    (k, row.get k) ∈ row := by
  induction row with
  | nil => simp at h
  | cons kv row ih =>
    obtain ⟨a, b⟩ := kv
    by_cases hk : k = a
    · subst hk
      simp [Row.get, List.lookup_cons]
    · have hne : (k == a) = false := by simpa using hk
      have h1 : k ∈ List.map Prod.fst row := by
        simp only [List.map_cons, List.mem_cons] at h
        rcases h with h | h
        · exact absurd h hk
        · exact h
      have := ih h1
      simp only [Row.get, List.lookup_cons, hne] at this ⊢
      exact List.mem_cons_of_mem _ this

theorem Row.get_of_mem (row : Row) (hwf : row.WF) (k : GoString) (v : Value)
    (h : (k, v) ∈ row) : row.get k = v := by
  induction row with
  | nil => simp at h
  | cons kv row ih =>
    obtain ⟨a, b⟩ := kv
    unfold Row.WF at hwf ih
    simp only [List.map_cons, List.nodup_cons] at hwf
    rcases List.mem_cons.1 h with h1 | h2
    · cases h1
      simp [Row.get, List.lookup_cons]
    · have hne : k ≠ a := by
        intro hka
        exact hwf.1 (List.mem_map.2 ⟨(k, v), h2, hka⟩)
      have hne1 : (k == a) = false := by simpa using hne
      have := ih hwf.2 h2
      simp only [Row.get, List.lookup_cons, hne1] at this ⊢
      exact this

theorem typeOf_supported (v : Value) (h : v.supported = true) :
    ∃ t, typeOf v = .ok t ∧ t ∈ sixTypes := by
  cases v <;> simp [Value.supported] at h <;> simp [typeOf, sixTypes]

theorem typeOf_unsupported (v : Value) (h : v.supported = false) :
    typeOf v = .error Err.nilDereference
      ∨ ∃ typeName, typeOf v = .error (Err.unsupportedExportType typeName) := by
  cases v <;> simp [Value.supported] at h <;> simp [typeOf]

theorem rowLoop_ok (row : Row) (ks : List GoString) :
    ∀ (table cols : Table),
      List.Forall₂ (fun k c => c.Name = k ∧ typeOf (row.get k) = .ok c.Typ) ks cols →
      TableFromRow.loop row ks table = .ok (table ++ cols) := by
  induction ks with
  | nil =>
    intro table cols h
    cases h
    simp [TableFromRow.loop]
  | cons k ks ih =>
    intro table cols h
    cases h with
    | cons hk hrest =>
      rename_i c cs
      obtain ⟨c1, c2⟩ := c
      simp only at hk
      obtain ⟨rfl, hk2⟩ := hk
      simp only [TableFromRow.loop, hk2]
      rw [ih _ _ hrest]
      simp

theorem rowLoop_error (row : Row) (ks : List GoString) :
    ∀ (table : Table), (∃ k ∈ ks, (row.get k).supported = false) →
      ∃ e, TableFromRow.loop row ks table = .error e
        ∧ (e = Err.nilDereference ∨ ∃ typeName, e = Err.unsupportedExportType typeName) := by
  induction ks with
  | nil => intro table h; simp at h
  | cons k ks ih =>
    intro table h
    unfold TableFromRow.loop
    cases hv : (row.get k).supported with
    | false =>
      rcases typeOf_unsupported _ hv with h1 | ⟨tn, h1⟩
      · exact ⟨_, by rw [h1], Or.inl rfl⟩
      · exact ⟨_, by rw [h1], Or.inr ⟨tn, rfl⟩⟩
    | true =>
      obtain ⟨t, ht, _⟩ := typeOf_supported _ hv
      rw [ht]
      apply ih
      obtain ⟨g, hg, hs⟩ := h
      rcases List.mem_cons.1 hg with rfl | hg
      · rw [hv] at hs; cases hs
      · exact ⟨g, hg, hs⟩

theorem exists_cols_of_supported (row : Row) (ks : List GoString)
    (h : ∀ k ∈ ks, (row.get k).supported = true) :
    ∃ cols : Table,
      List.Forall₂ (fun k c => c.Name = k ∧ typeOf (row.get k) = .ok c.Typ) ks cols
        ∧ cols.map Column.Name = ks ∧ ∀ c ∈ cols, c.Typ ∈ sixTypes := by
  induction ks with
  | nil => exact ⟨[], List.Forall₂.nil, rfl, by simp⟩
  | cons k ks ih =>
    obtain ⟨cols, hcols, hn, ht⟩ := ih fun g hg => h g (List.mem_cons_of_mem _ hg)
    obtain ⟨t, h1, h2⟩ := typeOf_supported _ (h k (List.mem_cons_self _ _))
    refine ⟨{ Name := k, Typ := t } :: cols, List.Forall₂.cons ⟨rfl, h1⟩ hcols, ?_, ?_⟩
    · simp [hn]
    · intro c hc
      rcases List.mem_cons.1 hc with rfl | hc
      · exact h2
      · exact ht c hc

theorem sortKeys_perm (l : List GoString) : (sortKeys l).Perm l :=
  List.perm_insertionSort _ l

theorem sortKeys_sorted (l : List GoString) : (sortKeys l).Sorted (fun a b => a ≤ b) :=
  List.sorted_insertionSort _ l

theorem sortKeys_strict (l : List GoString) (h : l.Nodup) :
    (sortKeys l).Pairwise (fun a b => a < b) :=
  (sortKeys_sorted l).lt_of_le ((sortKeys_perm l).nodup_iff.2 h)

theorem sortKeys_congr (l₁ l₂ : List GoString) (h₁ : l₁.Nodup) (h₂ : l₂.Nodup)
    (h : ∀ k, k ∈ l₁ ↔ k ∈ l₂) : sortKeys l₁ = sortKeys l₂ := by
  have hp : l₁.Perm l₂ := (List.perm_ext_iff_of_nodup h₁ h₂).2 h
  exact List.eq_of_perm_of_sorted
    (((sortKeys_perm l₁).trans hp).trans (sortKeys_perm l₂).symm)
    (sortKeys_sorted l₁) (sortKeys_sorted l₂)

theorem supported_get (row : Row) (hsup : ∀ kv ∈ row, kv.2.supported = true) :
    ∀ k ∈ sortKeys (row.map Prod.fst), (row.get k).supported = true := by
  intro k hk
  have hk1 : k ∈ row.map Prod.fst := (sortKeys_perm _).mem_iff.1 hk
  exact hsup _ (Row.get_of_mem_keys row k hk1)

/-- On a row of supported values `TableFromRow` succeeds: the keys are the
sorted column names and the table has one column per key, with the type tag of
the key's value. -/
theorem TableFromRow_ok (row : Row) (hsup : ∀ kv ∈ row, kv.2.supported = true) :
    ∃ tbl, TableFromRow row = .ok (tbl, sortKeys (row.map Prod.fst))
      ∧ List.Forall₂ (fun k c => c.Name = k ∧ typeOf (row.get k) = .ok c.Typ)
          (sortKeys (row.map Prod.fst)) tbl
      ∧ tbl.map Column.Name = sortKeys (row.map Prod.fst)
      ∧ ∀ c ∈ tbl, c.Typ ∈ sixTypes := by
  obtain ⟨cols, hcols, hn, ht⟩ := exists_cols_of_supported row _ (supported_get row hsup)
  refine ⟨cols, ?_, hcols, hn, ht⟩
  unfold TableFromRow
  simp only
  rw [rowLoop_ok row _ [] cols hcols]
  simp

/-- C6. On a row of supported values the keys `TableFromRow` returns are the
column names of the row, each once, in strictly ascending order, and they are
the names of the columns of the schema; a row with the same set of column
names, in whatever order its entries come, gives the same keys and the same
column names. -/
theorem TableFromRow_keys_sorted (row : Row) (hwf : row.WF)
    (hsup : ∀ kv ∈ row, kv.2.supported = true) :
    ∃ tbl keys, TableFromRow row = .ok (tbl, keys)
      ∧ keys.Perm (row.map Prod.fst)
      ∧ keys.Nodup
      ∧ keys.Pairwise (fun a b => a < b)
      ∧ tbl.map Column.Name = keys
      ∧ ∀ row1 : Row, row1.WF → (∀ kv ∈ row1, kv.2.supported = true) →
          (∀ k, k ∈ row1.map Prod.fst ↔ k ∈ row.map Prod.fst) →
          ∃ tbl1, TableFromRow row1 = .ok (tbl1, keys)
            ∧ tbl1.map Column.Name = tbl.map Column.Name := by
  obtain ⟨tbl, h1, _, h3, _⟩ := TableFromRow_ok row hsup
  refine ⟨tbl, _, h1, sortKeys_perm _, (sortKeys_perm _).nodup_iff.2 hwf,
    sortKeys_strict _ hwf, h3, ?_⟩
  intro row1 hwf1 hsup1 hsame
  obtain ⟨tbl1, g1, _, g3, _⟩ := TableFromRow_ok row1 hsup1
  have hk := sortKeys_congr _ _ hwf1 hwf hsame
  rw [hk] at g1 g3
  exact ⟨tbl1, g1, by rw [g3, h3]⟩

/-- The hypotheses of `TableFromRow_keys_sorted` hold on the sample data. -/
theorem TableFromRow_keys_sorted_witness :
    ∃ tbl keys, TableFromRow sampleRow = .ok (tbl, keys)
      ∧ keys.Perm (sampleRow.map Prod.fst)
      ∧ keys.Nodup
      ∧ keys.Pairwise (fun a b => a < b)
      ∧ tbl.map Column.Name = keys
      ∧ ∀ row1 : Row, row1.WF → (∀ kv ∈ row1, kv.2.supported = true) →
          (∀ k, k ∈ row1.map Prod.fst ↔ k ∈ sampleRow.map Prod.fst) →
          ∃ tbl1, TableFromRow row1 = .ok (tbl1, keys)
            ∧ tbl1.map Column.Name = tbl.map Column.Name :=
  TableFromRow_keys_sorted sampleRow (by unfold Row.WF; decide) (by decide)

/-- A row with a value outside the six kinds makes `TableFromRow` panic, in
the default branch of its type switch. -/
theorem TableFromRow_unsupported (row : Row) (hwf : row.WF)
    (h : ∃ kv ∈ row, kv.2.supported = false) :
    ∃ e, TableFromRow row = .error e
      ∧ (e = Err.nilDereference ∨ ∃ typeName, e = Err.unsupportedExportType typeName) := by
  obtain ⟨⟨k, v⟩, hkv, hv⟩ := h
  have hk : k ∈ sortKeys (row.map Prod.fst) :=
    (sortKeys_perm _).mem_iff.2 (List.mem_map.2 ⟨(k, v), hkv, rfl⟩)
  have hg : (row.get k).supported = false := by
    rw [Row.get_of_mem row hwf k v hkv]; exact hv
  obtain ⟨e, he, hkind⟩ := rowLoop_error row _ [] ⟨k, hk, hg⟩
  refine ⟨e, ?_, hkind⟩
  unfold TableFromRow
  simp only [he]

/-- When `TableFromRow` panics on the first row, `fetchTable` has written
nothing. -/
theorem fetchTable_first_row_error (L : Lib) (row : Row) (rows : List Row) (e : Err)
    (h : TableFromRow row = .error e) : fetchTable L (row :: rows) = ([], some e) := by
  simp [fetchTable, fetchTable.loop, h]

/-! ### Export -/

theorem fetchLoop_rest (L : Lib) (keys : List GoString) (rows : List Row) :
    ∀ (file : GoString) (datas : List GoString),
      List.Forall₂ (fun row d => serializeRow L row keys = .ok d) rows datas →
      fetchTable.loop L rows false keys file
        = (file ++ (datas.map fun d => d ++ "\n".toList).flatten, none) := by
  induction rows with
  | nil =>
    intro file datas h
    cases h
    simp [fetchTable.loop]
  | cons row rows ih =>
    intro file datas h
    cases h with
    | cons hd hrest =>
      simp only [fetchTable.loop, hd, Bool.false_eq_true, if_false]
      rw [ih _ _ hrest]
      simp

theorem marshalValues_isSome (L : Lib) (vals : List Value)
    (h : ∀ v ∈ vals, (marshalValue L v).isSome = true) :
    (marshalValues L vals).isSome = true := by
  induction vals with
  | nil => rfl
  | cons v vs ih =>
    have h1 := h v (List.mem_cons_self _ _)
    have h2 := ih fun w hw => h w (List.mem_cons_of_mem _ hw)
    obtain ⟨e, he⟩ := Option.isSome_iff_exists.1 h1
    obtain ⟨es, hes⟩ := Option.isSome_iff_exists.1 h2
    simp [marshalValues, he, hes]

theorem Row.get_mem_or_null (row : Row) (k : GoString) :
    (k, row.get k) ∈ row ∨ row.get k = Value.null := by
  by_cases h : k ∈ row.map Prod.fst
  · exact Or.inl (Row.get_of_mem_keys row k h)
  · right
    have : row.lookup k = none := by
      rw [List.lookup_eq_none_iff]
      intro p hp
      have : k ≠ p.1 := fun hk => h (List.mem_map.2 ⟨p, hp, hk.symm⟩)
      simpa using this
    simp [Row.get, this]

theorem serializeRow_ok (L : Lib) (row : Row) (keys : List GoString)
    (h : ∀ kv ∈ row, (marshalValue L kv.2).isSome = true) :
    ∃ d, serializeRow L row keys = .ok d := by
  have h1 : (marshalValues L (keys.map row.get)).isSome = true := by
    apply marshalValues_isSome
    intro v hv
    obtain ⟨k, _, rfl⟩ := List.mem_map.1 hv
    rcases Row.get_mem_or_null row k with hm | hn
    · exact h _ hm
    · rw [hn]; rfl
  obtain ⟨es, hes⟩ := Option.isSome_iff_exists.1 h1
  exact ⟨'[' :: (Join es ",".toList ++ [']']), by simp [serializeRow, Marshal, hes]⟩

theorem exists_datas (L : Lib) (keys : List GoString) (rows : List Row)
    (h : ∀ row ∈ rows, ∀ kv ∈ row, (marshalValue L kv.2).isSome = true) :
    ∃ datas, List.Forall₂ (fun row d => serializeRow L row keys = .ok d) rows datas := by
  induction rows with
  | nil => exact ⟨[], List.Forall₂.nil⟩
  | cons row rows ih =>
    obtain ⟨datas, hd⟩ := ih fun r hr => h r (List.mem_cons_of_mem _ hr)
    obtain ⟨d, hrow⟩ := serializeRow_ok L row keys (h row (List.mem_cons_self _ _))
    exact ⟨d :: datas, List.Forall₂.cons hrow hd⟩

/-- C8, the claim as stated fails: a row of supported values whose float is a
NaN is refused by `json.Marshal`, and `fetchTable` stops after the header. -/
theorem fetchTable_output_counterexample :
    (∀ kv ∈ [("x".toList, Value.float sampleNaN)], kv.2.supported = true)
    ∧ fetchTable sampleLib [[("x".toList, Value.float sampleNaN)]]
        = ("x:float\n".toList, some Err.marshal) := by
  decide

/-- C8, amended.  For a source of rows of supported values each of which
`json.Marshal` accepts (no NaN, no infinity, no time it refuses), `fetchTable`
writes nothing when there is no row; otherwise it writes, each followed by a
newline, the header of the schema of the first row and then, for every row in
source order, the first included, `serializeRow` of the row with the keys of
the first row; it does not panic. -/
theorem fetchTable_output (L : Lib) (rows : List Row)
    (hsup : ∀ row ∈ rows, ∀ kv ∈ row, kv.2.supported = true)
    (hmar : ∀ row ∈ rows, ∀ kv ∈ row, (marshalValue L kv.2).isSome = true) :
    (rows = [] → fetchTable L rows = ([], none))
    ∧ ∀ first rest, rows = first :: rest →
        ∃ tbl keys datas, TableFromRow first = .ok (tbl, keys)
          ∧ List.Forall₂ (fun row d => serializeRow L row keys = .ok d) rows datas
          ∧ datas.length = rows.length
          ∧ fetchTable L rows
              = (((tbl.Serialize :: datas).map fun d => d ++ "\n".toList).flatten, none) := by
  constructor
  · rintro rfl
    rfl
  · rintro first rest rfl
    obtain ⟨tbl, h1, _⟩ := TableFromRow_ok first (hsup first (List.mem_cons_self _ _))
    obtain ⟨datas, hd⟩ := exists_datas L (sortKeys (first.map Prod.fst)) (first :: rest) hmar
    refine ⟨tbl, _, datas, h1, hd, hd.length_eq.symm, ?_⟩
    cases hd with
    | cons hfirst hrest =>
      simp only [fetchTable, fetchTable.loop, h1, if_true, hfirst]
      rw [fetchLoop_rest L _ rest _ _ hrest]
      simp

/-- The hypotheses of `fetchTable_output` hold on the sample data. -/
theorem fetchTable_output_witness :
    ([sampleRow, sampleRow] = [] → fetchTable sampleLib [sampleRow, sampleRow] = ([], none))
    ∧ ∀ first rest, [sampleRow, sampleRow] = first :: rest →
        ∃ tbl keys datas, TableFromRow first = .ok (tbl, keys)
          ∧ List.Forall₂ (fun row d => serializeRow sampleLib row keys = .ok d)
              [sampleRow, sampleRow] datas
          ∧ datas.length = [sampleRow, sampleRow].length
          ∧ fetchTable sampleLib [sampleRow, sampleRow]
              = (((tbl.Serialize :: datas).map fun d => d ++ "\n".toList).flatten, none) :=
  fetchTable_output sampleLib [sampleRow, sampleRow] (by decide) (by decide)

/-! ### Decoding a line -/

theorem except_error_of_not_ok {α : Type} (r : Except Err α) (h : ∀ a, r ≠ .ok a) :
    ∃ e, r = .error e := by
  cases r with
  | error e => exact ⟨e, rfl⟩
  | ok a => exact absurd rfl (h a)

/-- What a successful run of the loop of `deserialize` has done: there was a
column for every element, and every element was decoded by the type of the
column at its position. -/
theorem deserializeLoop_inv (L : Lib) (tbl : Table) (arr : List GoString) :
    ∀ (i : Nat) (vals out : List Value), i ≤ tbl.length →
      deserialize.loop L tbl i arr vals = .ok out →
      arr.length + i ≤ tbl.length
      ∧ ∃ xs, out = vals ++ xs ∧ xs.length = arr.length
        ∧ ∀ j col raw, tbl.get? (i + j) = some col → arr.get? j = some raw →
            ∃ x, xs.get? j = some x ∧ unmarshalAs L col.Typ raw = .ok x := by
  induction arr with
  | nil =>
    intro i vals out hi h
    simp only [deserialize.loop, Except.ok.injEq] at h
    exact ⟨by simpa using hi, [], by simp [h], rfl, by simp⟩
  | cons v rest ih =>
    intro i vals out _ h
    unfold deserialize.loop at h
    cases hcol : tbl.get? i with
    | none => rw [hcol] at h; cases h
    | some col =>
      rw [hcol] at h
      simp only at h
      have hi1 : i < tbl.length := by
        by_contra hcon
        rw [List.get?_eq_none.2 (by omega)] at hcol
        cases hcol
      cases hx : unmarshalAs L col.Typ v with
      | error e => rw [hx] at h; cases h
      | ok x =>
        rw [hx] at h
        simp only at h
        obtain ⟨hlen, xs, hout, hxs, hall⟩ := ih _ _ _ hi1 h
        refine ⟨by simp only [List.length_cons]; omega, x :: xs, by simp [hout], by simp [hxs], ?_⟩
        intro j c raw hc hraw
        cases j with
        | zero =>
          simp only [Nat.add_zero] at hc
          rw [hcol] at hc
          simp only [List.get?_cons_zero, Option.some.injEq] at hraw
          cases hc
          subst hraw
          exact ⟨x, rfl, hx⟩
        | succ j =>
          simp only [List.get?_cons_succ] at hraw ⊢
          exact hall j c raw (by rw [← hc]; congr 1; omega) hraw

/-- The loop of `deserialize` succeeds when there is a column for every element
and every element decodes under the type of its column. -/
theorem deserializeLoop_ok (L : Lib) (tbl : Table) (arr : List GoString) :
    ∀ (i : Nat) (vals : List Value), arr.length + i ≤ tbl.length →
      (∀ j col raw, tbl.get? (i + j) = some col → arr.get? j = some raw →
        ∃ x, unmarshalAs L col.Typ raw = .ok x) →
      ∃ xs, deserialize.loop L tbl i arr vals = .ok (vals ++ xs) ∧ xs.length = arr.length := by
  induction arr with
  | nil =>
    intro i vals _ _
    exact ⟨[], by simp [deserialize.loop], rfl⟩
  | cons v rest ih =>
    intro i vals hlen hall
    have hi : i < tbl.length := by simp only [List.length_cons] at hlen; omega
    obtain ⟨x, hx⟩ := hall 0 (tbl.get ⟨i, hi⟩) v (by simp [List.get?_eq_get hi]) rfl
    obtain ⟨xs, hxs, hl⟩ := ih (i + 1) (vals ++ [x])
      (by simp only [List.length_cons] at hlen; omega)
      (fun j c raw hc hraw => hall (j + 1) c raw (by rw [← hc]; congr 1; omega) hraw)
    refine ⟨x :: xs, ?_, by simp [hl]⟩
    unfold deserialize.loop
    rw [List.get?_eq_get hi]
    simp only [hx, hxs]
    simp

/-- The loop of `deserialize` stops at the first position that has no column or
whose element does not decode, with the panic of that position. -/
theorem deserializeLoop_first_failure (L : Lib) (tbl : Table) (arr : List GoString) :
    ∀ (i : Nat) (vals : List Value) (p : Nat) (raw : GoString) (e : Err),
      arr.get? p = some raw →
      (∀ j col r, j < p → tbl.get? (i + j) = some col → arr.get? j = some r →
        ∃ x, unmarshalAs L col.Typ r = .ok x) →
      p + i ≤ tbl.length →
      ((tbl.get? (i + p) = none ∧ e = Err.indexOutOfRange)
        ∨ ∃ col, tbl.get? (i + p) = some col ∧ unmarshalAs L col.Typ raw = .error e) →
      deserialize.loop L tbl i arr vals = .error e := by
  induction arr with
  | nil => intro i vals p raw e h; simp at h
  | cons v rest ih =>
    intro i vals p raw e hraw hall hlen hfail
    cases p with
    | zero =>
      simp only [List.get?_cons_zero, Option.some.injEq] at hraw
      subst hraw
      simp only [Nat.add_zero] at hfail
      unfold deserialize.loop
      rcases hfail with ⟨hnone, rfl⟩ | ⟨col, hcol, herr⟩
      · rw [hnone]
      · rw [hcol]; simp only [herr]
    | succ p =>
      have hi : i < tbl.length := by omega
      obtain ⟨x, hx⟩ := hall 0 (tbl.get ⟨i, hi⟩) v (by omega)
        (by simp [List.get?_eq_get hi]) rfl
      unfold deserialize.loop
      rw [List.get?_eq_get hi]
      simp only [hx]
      apply ih (i + 1) _ p raw e (by simpa using hraw)
      · intro j c r hj hc hr
        exact hall (j + 1) c r (by omega) (by rw [← hc]; congr 1; omega) hr
      · omega
      · have : i + 1 + p = i + (p + 1) := by omega
        rw [this]; exact hfail

/-- C4, the claim as stated fails: a line with fewer elements than the schema
has columns is decoded without any failure (the empty array against one column,
one element against two columns); a line with more elements fails with the
runtime error of the index, there being no arity check. -/
theorem deserialize_arity_counterexample :
    unmarshalRawArray "[]".toList = some []
    ∧ deserialize sampleLib [{ Name := "a".toList, Typ := "int".toList }] "[]".toList = .ok []
    ∧ deserialize sampleLib
        [{ Name := "a".toList, Typ := "int".toList },
         { Name := "b".toList, Typ := "string".toList }] "[7]".toList = .ok [Value.int 7]
    ∧ deserialize sampleLib [{ Name := "a".toList, Typ := "int".toList }] "[7, 8]".toList
        = .error Err.indexOutOfRange := by
  decide

/-- C4, amended.  For a line that parses as an array: with more elements than
the schema has columns `deserialize` fails, and it is the runtime error of the
index when the elements that have a column decode; with fewer elements (or as
many) there is no arity failure: when the elements decode under the types of
the first columns, `deserialize` succeeds and returns as many values as the
line has elements. -/
theorem deserialize_arity (L : Lib) (tbl : Table) (line : GoString) (arr : List GoString)
    (h : unmarshalRawArray line = some arr) :
    (tbl.length < arr.length → ∃ e, deserialize L tbl line = .error e)
    ∧ (tbl.length < arr.length →
        (∀ i col raw, tbl.get? i = some col → arr.get? i = some raw →
          ∃ x, unmarshalAs L col.Typ raw = .ok x) →
        deserialize L tbl line = .error Err.indexOutOfRange)
    ∧ (arr.length ≤ tbl.length →
        (∀ i col raw, tbl.get? i = some col → arr.get? i = some raw →
          ∃ x, unmarshalAs L col.Typ raw = .ok x) →
        ∃ vals, deserialize L tbl line = .ok vals ∧ vals.length = arr.length) := by
  refine ⟨?_, ?_, ?_⟩
  · intro hlt
    apply except_error_of_not_ok
    intro out hout
    simp only [deserialize, h] at hout
    have := (deserializeLoop_inv L tbl arr 0 [] out (Nat.zero_le _) hout).1
    omega
  · intro hlt hall
    simp only [deserialize, h]
    obtain ⟨raw, hraw⟩ : ∃ raw, arr.get? tbl.length = some raw :=
      ⟨arr.get ⟨tbl.length, hlt⟩, List.get?_eq_get hlt⟩
    apply deserializeLoop_first_failure L tbl arr 0 [] tbl.length raw _ hraw
    · intro j col r _ hc hr
      exact hall j col r (by simpa using hc) hr
    · omega
    · left
      exact ⟨List.get?_eq_none.2 (by omega), rfl⟩
  · intro hle hall
    simp only [deserialize, h]
    obtain ⟨xs, hxs, hl⟩ := deserializeLoop_ok L tbl arr 0 [] (by omega)
      (fun j col raw hc hr => hall j col raw (by simpa using hc) hr)
    exact ⟨xs, by simpa using hxs, hl⟩

/-- The hypotheses of `deserialize_arity` hold on the sample data. -/
theorem deserialize_arity_witness :
    (1 < 2 → ∃ e, deserialize sampleLib [{ Name := "a".toList, Typ := "int".toList }]
        "[7, 8]".toList = .error e)
    ∧ (1 < 2 →
        (∀ i col raw, [({ Name := "a".toList, Typ := "int".toList } : Column)].get? i = some col
          → ["7".toList, "8".toList].get? i = some raw →
          ∃ x, unmarshalAs sampleLib col.Typ raw = .ok x) →
        deserialize sampleLib [{ Name := "a".toList, Typ := "int".toList }] "[7, 8]".toList
          = .error Err.indexOutOfRange)
    ∧ (2 ≤ 1 →
        (∀ i col raw, [({ Name := "a".toList, Typ := "int".toList } : Column)].get? i = some col
          → ["7".toList, "8".toList].get? i = some raw →
          ∃ x, unmarshalAs sampleLib col.Typ raw = .ok x) →
        ∃ vals, deserialize sampleLib [{ Name := "a".toList, Typ := "int".toList }]
          "[7, 8]".toList = .ok vals ∧ vals.length = 2) :=
  deserialize_arity sampleLib [{ Name := "a".toList, Typ := "int".toList }] "[7, 8]".toList
    ["7".toList, "8".toList] (by decide)

/-- C9, the claim as stated fails: a `null` where int or bool is declared is
accepted and leaves the zero value, and a number of 32 hexadecimal digits is
accepted where uuid is declared. -/
theorem deserialize_mismatch_counterexample :
    deserialize sampleLib [{ Name := "a".toList, Typ := "int".toList }] "[null]".toList
      = .ok [Value.int 0]
    ∧ deserialize sampleLib [{ Name := "a".toList, Typ := "bool".toList }] "[null]".toList
      = .ok [Value.bool false]
    ∧ deserialize sampleLib [{ Name := "a".toList, Typ := "uuid".toList }]
        "[11111111111111111111111111111111]".toList
      = .ok [Value.uuid [17, 17, 17, 17, 17, 17, 17, 17, 17, 17, 17, 17, 17, 17, 17, 17]] := by
  decide

/-- C9, amended.  For a line that parses as an array (with as many elements as
the schema has columns, or not): if the element at some position does not decode under
the type declared for the column at that position, `deserialize` fails; when it
succeeds, the value at every position is the element decoded under the declared
type of that position, whatever the shape of the element.  A quoted string does
not decode where int or bool is declared, nor a number where string or time is
declared.  A `null` decodes where bool, int, string, float or time is declared
and gives the zero value. -/
theorem deserialize_mismatch (L : Lib) (tbl : Table) (line : GoString)
    (arr : List GoString) (h : unmarshalRawArray line = some arr) :
    (∀ i col raw e, tbl.get? i = some col → arr.get? i = some raw →
        unmarshalAs L col.Typ raw = .error e → ∃ e1, deserialize L tbl line = .error e1)
    ∧ (∀ vals, deserialize L tbl line = .ok vals →
        vals.length = arr.length
        ∧ ∀ i col raw, tbl.get? i = some col → arr.get? i = some raw →
            ∃ x, vals.get? i = some x ∧ unmarshalAs L col.Typ raw = .ok x)
    ∧ (∀ r, unmarshalAs L "int".toList ('"' :: r) = .error Err.unmarshal
        ∧ unmarshalAs L "bool".toList ('"' :: r) = .error Err.unmarshal)
    ∧ (∀ c r, c = '-' ∨ isDigit c = true →
        unmarshalAs L "string".toList (c :: r) = .error Err.unmarshal
        ∧ unmarshalAs L "time".toList (c :: r) = .error Err.unmarshal)
    ∧ (unmarshalAs L "bool".toList "null".toList = .ok (Value.bool false)
        ∧ unmarshalAs L "int".toList "null".toList = .ok (Value.int 0)
        ∧ unmarshalAs L "string".toList "null".toList = .ok (Value.str [])
        ∧ unmarshalAs L "float".toList "null".toList = .ok (Value.float { bits := 0 })
        ∧ unmarshalAs L "time".toList "null".toList
            = .ok (Value.time { sec := 0, nsec := 0, offset := 0 })) := by
  have hinv : ∀ vals, deserialize L tbl line = .ok vals →
      vals.length = arr.length
      ∧ ∀ i col raw, tbl.get? i = some col → arr.get? i = some raw →
          ∃ x, vals.get? i = some x ∧ unmarshalAs L col.Typ raw = .ok x := by
    intro vals hv
    simp only [deserialize, h] at hv
    obtain ⟨_, xs, hout, hxs, hall⟩ := deserializeLoop_inv L tbl arr 0 [] vals (Nat.zero_le _) hv
    simp only [List.nil_append] at hout
    subst hout
    exact ⟨hxs, fun i col raw hc hr => hall i col raw (by simpa using hc) hr⟩
  refine ⟨?_, hinv, ?_, ?_, ?_⟩
  · intro i col raw e hc hr herr
    apply except_error_of_not_ok
    intro out hout
    obtain ⟨x, _, hx⟩ := (hinv out hout).2 i col raw hc hr
    rw [herr] at hx
    cases hx
  · intro r
    constructor <;> simp [unmarshalAs, unmarshalInt, unmarshalBool, isDigit]
  · intro c r hc
    have hn : c ≠ 'n' := by
      rcases hc with rfl | hd
      · decide
      · rintro rfl; simp [isDigit] at hd
    have hq : c ≠ '"' := by
      rcases hc with rfl | hd
      · decide
      · rintro rfl; simp [isDigit] at hd
    constructor
    · simp [unmarshalAs, unmarshalString, hn, hq]
    · simp [unmarshalAs, unmarshalTime, hq, hn]
  · refine ⟨?_, ?_, ?_, ?_, ?_⟩ <;> simp [unmarshalAs, unmarshalBool, unmarshalInt,
      unmarshalString, unmarshalFloat, unmarshalTime]

/-- The hypotheses of `deserialize_mismatch` hold on the sample data. -/
theorem deserialize_mismatch_witness :
    deserialize sampleLib [{ Name := "a".toList, Typ := "int".toList }] "[\"7\"]".toList
      = .error Err.unmarshal
    ∧ ∃ e1, deserialize sampleLib [{ Name := "a".toList, Typ := "int".toList }]
        "[\"7\"]".toList = .error e1 :=
  ⟨by decide,
    (deserialize_mismatch sampleLib [{ Name := "a".toList, Typ := "int".toList }]
      "[\"7\"]".toList ["\"7\"".toList] (by decide)).1 0 _ _ Err.unmarshal rfl rfl
      (by decide)⟩

theorem isDigit_digitChar (d : Nat) (h : d < 10) : isDigit (digitChar d) = true := by
  interval_cases d <;> rfl

theorem digitChar_eq_zero (d : Nat) (h : d < 10) (h0 : digitChar d = '0') : d = 0 := by
  interval_cases d <;> first | rfl | (exfalso; revert h0; decide)

theorem digitsRev_lt (fuel : Nat) : ∀ n, ∀ d ∈ digitsRev fuel n, d < 10 := by
  induction fuel with
  | zero => intro n d hd; simp [digitsRev] at hd
  | succ fuel ih =>
    intro n d hd
    unfold digitsRev at hd
    split at hd
    · simp only [List.mem_singleton] at hd; omega
    · rcases List.mem_cons.1 hd with rfl | hd
      · omega
      · exact ih _ _ hd

theorem digitsRev_ne_nil (fuel n : Nat) (h : n < fuel) : digitsRev fuel n ≠ [] := by
  cases fuel with
  | zero => omega
  | succ fuel =>
    unfold digitsRev
    split <;> simp

theorem digitsRev_getLast (fuel : Nat) :
    ∀ n, n < fuel → 0 < n → ∀ d, (digitsRev fuel n).getLast? = some d → d ≠ 0 := by
  induction fuel with
  | zero => intro n h; omega
  | succ fuel ih =>
    intro n h hpos d hd
    unfold digitsRev at hd
    split at hd
    · simp only [List.getLast?_singleton, Option.some.injEq] at hd; omega
    · have hne := digitsRev_ne_nil fuel (n / 10) (by omega)
      obtain ⟨a, l, hal⟩ := List.exists_cons_of_ne_nil hne
      rw [hal, List.getLast?_cons_cons, ← hal] at hd
      exact ih (n / 10) (by omega) (by omega) d hd

theorem digitsRev_zero (fuel : Nat) : digitsRev (fuel + 1) 0 = [0] := by
  simp [digitsRev]


/-- The decimal text of a number: digits only, at least one, and no leading
zero except for the number zero. -/
theorem formatNat_shape (n : Nat) :
    ∃ c cs, formatNat n = c :: cs ∧ (∀ x ∈ c :: cs, isDigit x = true)
      ∧ (c = '0' → cs = []) := by
  have hne : formatNat n ≠ [] := by
    simp [formatNat, digitsRev_ne_nil (n + 1) n (by omega)]
  obtain ⟨c, cs, hc⟩ := List.exists_cons_of_ne_nil hne
  refine ⟨c, cs, hc, ?_, ?_⟩
  · rw [← hc]
    intro x hx
    simp only [formatNat, List.mem_map, List.mem_reverse] at hx
    obtain ⟨d, hd, rfl⟩ := hx
    exact isDigit_digitChar d (digitsRev_lt _ _ d hd)
  · intro h0
    by_cases hn : n = 0
    · subst hn
      simp [formatNat, digitsRev] at hc
      exact hc.2
    · exfalso
      have hhead : (formatNat n).head? = some c := by rw [hc]; rfl
      simp only [formatNat, List.head?_map, List.head?_reverse] at hhead
      cases hl : (digitsRev (n + 1) n).getLast? with
      | none => rw [hl] at hhead; cases hhead
      | some d =>
        rw [hl] at hhead
        simp only [Option.map_some', Option.some.injEq] at hhead
        have hd10 : d < 10 := digitsRev_lt _ _ d (List.mem_of_getLast?_eq_some hl)
        have hd0 := digitsRev_getLast (n + 1) n (by omega) (by omega) d hl
        exact hd0 (digitChar_eq_zero d hd10 (by rw [hhead, h0]))

theorem hexDigit_safe (n : Nat) (h : n < 16) :
    32 ≤ (hexDigit n).toNat ∧ hexDigit n ≠ '"' ∧ hexDigit n ≠ '\\' := by
  interval_cases n <;> decide

theorem Join_cons_cons (e e2 : GoString) (es : List GoString) (sep : GoString) :
    Join (e :: e2 :: es) sep = e ++ sep ++ Join (e2 :: es) sep := by
  simp [Join, List.intercalate, List.intersperse]

theorem Join_singleton (e sep : GoString) : Join [e] sep = e := by
  simp [Join, List.intercalate, List.intersperse]

theorem forall₂_of_mem_right {α β : Type} {R : α → β → Prop} {l₁ : List α} {l₂ : List β}
    (h : List.Forall₂ R l₁ l₂) : ∀ b ∈ l₂, ∃ a, R a b := by
  induction h with
  | nil => intro b hb; simp at hb
  | cons hab _ ih =>
    intro b hb
    rcases List.mem_cons.1 hb with rfl | hb
    · exact ⟨_, hab⟩
    · exact ih b hb

theorem Split_ne_nil (s : GoString) (sep : Char) : Split s sep ≠ [] := by
  unfold Split List.splitOn
  exact List.splitOnP_ne_nil _ _

theorem Repeat_succ (s : GoString) (n : Nat) : Repeat s (n + 1) = s ++ Repeat s n := by
  simp [Repeat, List.replicate_succ]

theorem placeholders_eq (k : Nat) :
    Repeat "?, ".toList k ++ "?".toList
      = Join (List.replicate (k + 1) "?".toList) ", ".toList := by
  induction k with
  | zero => rfl
  | succ k ih =>
    rw [Repeat_succ, List.replicate_succ, List.replicate_succ, Join_cons_cons,
      ← List.replicate_succ, ← ih]
    simp

theorem TableFromHeader_keys (line : GoString) (tbl : Table) (keys : List GoString)
    (h : TableFromHeader line = .ok (tbl, keys)) :
    keys = tbl.map Column.Name ∧ 1 ≤ keys.length
      ∧ List.Forall₂ (fun f c => Split f ':' = [c.Name, c.Typ]) (Split line ',') tbl := by
  obtain ⟨cols, hcols, h1, h2⟩ := headerLoop_inv _ _ _ _ _ h
  simp only [List.nil_append] at h1 h2
  subst h1
  refine ⟨h2, ?_, hcols⟩
  have hne := Split_ne_nil line ','
  have hl := hcols.length_eq
  rw [h2, List.length_map, ← hl]
  exact List.length_pos.2 hne

/-- C11. For every table name and every header line that `TableFromHeader`
accepts, with keys `k1..km`: `m` is at least 1, the keys are the column names
in schema order, and the query `uploadTable` builds on the header line is
`insert into ` + tableName + `(` + the keys joined by `, ` + `) values(` + `m`
placeholders `?` joined by `, ` + `)`. -/
theorem uploadTable_insert_query (L : Lib) (exec : List Entry → Bool)
    (tableName header : GoString) (tbl : Table) (keys : List GoString)
    (hh : TableFromHeader header = .ok (tbl, keys)) :
    1 ≤ keys.length ∧ keys = tbl.map Column.Name
    ∧ insertQuery tableName keys
        = "insert into ".toList ++ tableName ++ "(".toList ++ Join keys ", ".toList
          ++ ") values(".toList ++ Join (List.replicate keys.length "?".toList) ", ".toList
          ++ ")".toList
    ∧ uploadTable.loop L exec tableName [header]
        { isHeader := true, tbl := [], query := [], batch := [], flushed := [] }
        = .ok { isHeader := false, tbl := tbl, query := insertQuery tableName keys,
                batch := [], flushed := [] } := by
  obtain ⟨hk, hm, _⟩ := TableFromHeader_keys header tbl keys hh
  refine ⟨hm, hk, ?_, ?_⟩
  · obtain ⟨k, hk1⟩ : ∃ k, keys.length = k + 1 := ⟨keys.length - 1, by omega⟩
    have := placeholders_eq k
    unfold insertQuery
    rw [hk1, Nat.add_sub_cancel, ← this]
    simp
  · simp [uploadTable.loop, hh]

/-- The hypotheses of `uploadTable_insert_query` hold on the sample data. -/
theorem uploadTable_insert_query_witness :
    1 ≤ ["a".toList, "b".toList].length
    ∧ insertQuery "t".toList ["a".toList, "b".toList]
        = "insert into t(a, b) values(?, ?)".toList :=
  ⟨(uploadTable_insert_query sampleLib (fun _ => true) "t".toList "a:int,b:string".toList
      [{ Name := "a".toList, Typ := "int".toList }, { Name := "b".toList, Typ := "string".toList }]
      ["a".toList, "b".toList] (by decide)).1, by decide⟩

/-! ### Type classification -/

theorem forall₂_get? {α β : Type} {R : α → β → Prop} {l₁ : List α} {l₂ : List β}
    (h : List.Forall₂ R l₁ l₂) :
    ∀ i a b, l₁.get? i = some a → l₂.get? i = some b → R a b := by
  induction h with
  | nil => intro i a b ha; simp at ha
  | cons hab _ ih =>
    intro i a b ha hb
    cases i with
    | zero =>
      simp only [List.get?_cons_zero, Option.some.injEq] at ha hb
      subst ha; subst hb
      exact hab
    | succ i =>
      simp only [List.get?_cons_succ] at ha hb
      exact ih i a b ha hb

/-- The type switch of `TableFromRow` gives each of the six kinds its own tag. -/
theorem typeOf_tag (v : Value) (t : GoString) (h : typeOf v = .ok t) :
    (t = "bool".toList ↔ ∃ b, v = Value.bool b)
    ∧ (t = "int".toList ↔ ∃ n, v = Value.int n)
    ∧ (t = "string".toList ↔ ∃ s, v = Value.str s)
    ∧ (t = "float".toList ↔ ∃ f, v = Value.float f)
    ∧ (t = "time".toList ↔ ∃ tm, v = Value.time tm)
    ∧ (t = "uuid".toList ↔ ∃ u, v = Value.uuid u) := by
  cases v <;> simp only [typeOf, Except.ok.injEq, reduceCtorEq] at h <;> subst h <;>
    simp

/-- C12. On a row of supported values `TableFromRow` succeeds; the schema has
one column per entry of the row; column `i` has the name `keys[i]`, and its
type is the tag of the dynamic kind of `row[keys[i]]`: `bool`, `int`, `string`,
`float`, `time` or `uuid`, each kind having exactly its own tag. -/
theorem TableFromRow_classification (row : Row)
    (hsup : ∀ kv ∈ row, kv.2.supported = true) :
    ∃ tbl keys, TableFromRow row = .ok (tbl, keys)
      ∧ tbl.length = row.length ∧ keys.length = row.length
      ∧ ∀ i k c, keys.get? i = some k → tbl.get? i = some c →
          c.Name = k ∧ c.Typ ∈ sixTypes
          ∧ (c.Typ = "bool".toList ↔ ∃ b, row.get k = Value.bool b)
          ∧ (c.Typ = "int".toList ↔ ∃ n, row.get k = Value.int n)
          ∧ (c.Typ = "string".toList ↔ ∃ s, row.get k = Value.str s)
          ∧ (c.Typ = "float".toList ↔ ∃ f, row.get k = Value.float f)
          ∧ (c.Typ = "time".toList ↔ ∃ tm, row.get k = Value.time tm)
          ∧ (c.Typ = "uuid".toList ↔ ∃ u, row.get k = Value.uuid u) := by
  obtain ⟨tbl, h1, h2, h3, h4⟩ := TableFromRow_ok row hsup
  have hkl : (sortKeys (row.map Prod.fst)).length = row.length := by
    rw [(sortKeys_perm _).length_eq, List.length_map]
  refine ⟨tbl, _, h1, ?_, hkl, ?_⟩
  · rw [← h2.length_eq, hkl]
  · intro i k c hk hc
    obtain ⟨hn, ht⟩ := forall₂_get? h2 i k c hk hc
    exact ⟨hn, h4 c (List.get?_mem hc), typeOf_tag _ _ ht⟩

/-- The hypotheses of `TableFromRow_classification` hold on the sample data. -/
theorem TableFromRow_classification_witness :
    TableFromRow sampleRow = .ok (sampleTable, sampleTable.map Column.Name)
    ∧ ∃ tbl keys, TableFromRow sampleRow = .ok (tbl, keys)
      ∧ tbl.length = sampleRow.length ∧ keys.length = sampleRow.length
      ∧ ∀ i k c, keys.get? i = some k → tbl.get? i = some c →
          c.Name = k ∧ c.Typ ∈ sixTypes
          ∧ (c.Typ = "bool".toList ↔ ∃ b, sampleRow.get k = Value.bool b)
          ∧ (c.Typ = "int".toList ↔ ∃ n, sampleRow.get k = Value.int n)
          ∧ (c.Typ = "string".toList ↔ ∃ s, sampleRow.get k = Value.str s)
          ∧ (c.Typ = "float".toList ↔ ∃ f, sampleRow.get k = Value.float f)
          ∧ (c.Typ = "time".toList ↔ ∃ tm, sampleRow.get k = Value.time tm)
          ∧ (c.Typ = "uuid".toList ↔ ∃ u, sampleRow.get k = Value.uuid u) :=
  ⟨by decide, TableFromRow_classification sampleRow (by decide)⟩

/-! ### Import conservation -/

theorem not_mem_of_mem_splitOnP (p : Char → Bool) (xs : GoString) :
    ∀ l ∈ xs.splitOnP p, ∀ x ∈ l, p x = false := by
  induction xs with
  | nil => intro l hl x hx; simp at hl; subst hl; simp at hx
  | cons a xs ih =>
    intro l hl x hx
    rw [List.splitOnP_cons] at hl
    by_cases ha : p a = true
    · simp only [ha, if_true, List.mem_cons] at hl
      rcases hl with rfl | hl
      · simp at hx
      · exact ih l hl x hx
    · simp only [ha, Bool.false_eq_true, if_false] at hl
      cases hs : List.splitOnP p xs with
      | nil => exact absurd hs (List.splitOnP_ne_nil _ _)
      | cons hd tl =>
        rw [hs] at hl ih
        simp only [List.modifyHead_cons, List.mem_cons] at hl
        rcases hl with rfl | hl
        · rcases List.mem_cons.1 hx with rfl | hx
          · simpa using ha
          · exact ih hd (List.mem_cons_self _ _) x hx
        · exact ih l (List.mem_cons_of_mem _ hl) x hx

theorem not_mem_of_mem_Split (s : GoString) (sep : Char) (l : GoString)
    (hl : l ∈ Split s sep) : sep ∉ l := by
  intro hmem
  have := not_mem_of_mem_splitOnP (fun c => c == sep) s l hl sep hmem
  simp at this

theorem field_of_Split (f n t : GoString) (h : Split f ':' = [n, t]) :
    f = n ++ ":".toList ++ t ∧ ':' ∉ n ∧ ':' ∉ t := by
  have hj := List.intercalate_splitOn f ':'
  have h1 : List.splitOn ':' f = [n, t] := h
  rw [h1] at hj
  refine ⟨?_, ?_, ?_⟩
  · rw [← hj]; simp [List.intercalate, colon_toList]
  · exact not_mem_of_mem_Split f ':' n (by rw [h]; simp)
  · exact not_mem_of_mem_Split f ':' t (by rw [h]; simp)

theorem fields_of_forall₂ (fs : List GoString) (tbl : Table)
    (h : List.Forall₂ (fun f c => Split f ':' = [c.Name, c.Typ]) fs tbl) :
    tbl.map (fun v => v.Name ++ ":".toList ++ v.Typ) = fs := by
  induction h with
  | nil => rfl
  | cons hab _ ih =>
    rw [List.map_cons, ih, ← (field_of_Split _ _ _ hab).1]

/-- What `TableFromHeader` returns is the line, field by field: joined again it
is the line, and neither names nor types hold a comma or a colon. -/
theorem TableFromHeader_fields (line : GoString) (tbl : Table) (keys : List GoString)
    (h : TableFromHeader line = .ok (tbl, keys)) :
    tbl.map (fun v => v.Name ++ ":".toList ++ v.Typ) = Split line ','
    ∧ tbl ≠ []
    ∧ ∀ c ∈ tbl, (',' ∉ c.Name ∧ ':' ∉ c.Name) ∧ (',' ∉ c.Typ ∧ ':' ∉ c.Typ) := by
  obtain ⟨_, hm, hF⟩ := TableFromHeader_keys line tbl keys h
  have hfields := fields_of_forall₂ _ _ hF
  refine ⟨hfields, ?_, ?_⟩
  · intro h0
    have := hF.length_eq
    rw [h0] at this
    exact Split_ne_nil line ',' (List.length_eq_zero.1 this)
  · intro c hc
    have hmem : c.Name ++ ":".toList ++ c.Typ ∈ Split line ',' := by
      rw [← hfields]; exact List.mem_map.2 ⟨c, hc, rfl⟩
    have hcomma := not_mem_of_mem_Split line ',' _ hmem
    obtain ⟨f, hf, hsplit⟩ : ∃ f, f ∈ Split line ',' ∧ Split f ':' = [c.Name, c.Typ] := by
      obtain ⟨f, hf⟩ := forall₂_of_mem_right hF c hc
      have hfeq := (field_of_Split _ _ _ hf).1
      exact ⟨f, by rw [hfeq]; exact hmem, hf⟩
    obtain ⟨_, hn, ht⟩ := field_of_Split _ _ _ hsplit
    simp only [List.mem_append, not_or] at hcomma
    exact ⟨⟨hcomma.1.1, hn⟩, ⟨hcomma.2, ht⟩⟩

/-- C17. For every line that `TableFromHeader` accepts, `Serialize` of the
table it returns is the line. -/
theorem Serialize_TableFromHeader (line : GoString) (tbl : Table) (keys : List GoString)
    (h : TableFromHeader line = .ok (tbl, keys)) : tbl.Serialize = line := by
  unfold Table.Serialize Join
  rw [(TableFromHeader_fields line tbl keys h).1, comma_toList]
  exact List.intercalate_splitOn line ','

/-- The hypothesis of `Serialize_TableFromHeader` holds on a sample header. -/
theorem Serialize_TableFromHeader_witness :
    TableFromHeader "a:int,b:string".toList
      = .ok ([{ Name := "a".toList, Typ := "int".toList },
              { Name := "b".toList, Typ := "string".toList }], ["a".toList, "b".toList])
    ∧ Table.Serialize [{ Name := "a".toList, Typ := "int".toList },
        { Name := "b".toList, Typ := "string".toList }] = "a:int,b:string".toList :=
  ⟨by decide,
    Serialize_TableFromHeader "a:int,b:string".toList
      [{ Name := "a".toList, Typ := "int".toList },
       { Name := "b".toList, Typ := "string".toList }] ["a".toList, "b".toList] (by decide)⟩

/-- C18. `TableFromHeader` of the serialized header returns the schema, with
the column names in order as keys, exactly when the schema is not empty and no
column name and no column type holds a comma or a colon; this is so for the
schema `TableFromRow` infers from a non-empty row of supported values whose
column names hold neither. -/
theorem header_roundtrip_exact (t : Table) :
    (TableFromHeader t.Serialize = .ok (t, t.map Column.Name)
      ↔ t ≠ [] ∧ ∀ c ∈ t, (',' ∉ c.Name ∧ ':' ∉ c.Name) ∧ (',' ∉ c.Typ ∧ ':' ∉ c.Typ))
    ∧ ∀ row : Row, row ≠ [] → (∀ kv ∈ row, kv.2.supported = true) →
        (∀ kv ∈ row, ',' ∉ kv.1 ∧ ':' ∉ kv.1) →
        ∃ tbl keys, TableFromRow row = .ok (tbl, keys)
          ∧ TableFromHeader tbl.Serialize = .ok (tbl, keys) := by
  constructor
  · constructor
    · intro h
      have := TableFromHeader_fields _ _ _ h
      exact ⟨this.2.1, this.2.2⟩
    · rintro ⟨hne, hclean⟩
      exact header_roundtrip t hne hclean
  · intro row hne hsup hnames
    obtain ⟨tbl, h1, _, h3, h4⟩ := TableFromRow_ok row hsup
    refine ⟨tbl, _, h1, ?_⟩
    have hkeys : sortKeys (row.map Prod.fst) ≠ [] := by
      intro h0
      have := (sortKeys_perm (row.map Prod.fst)).length_eq
      rw [h0] at this
      simp only [List.length_nil, List.length_map] at this
      exact hne (List.length_eq_zero.1 this.symm)
    have htne : tbl ≠ [] := by
      intro h0
      rw [h0] at h3
      exact hkeys h3.symm
    have hclean : ∀ c ∈ tbl, (',' ∉ c.Name ∧ ':' ∉ c.Name) ∧ (',' ∉ c.Typ ∧ ':' ∉ c.Typ) := by
      intro c hc
      refine ⟨?_, sixTypes_clean _ (h4 c hc)⟩
      have hk : c.Name ∈ sortKeys (row.map Prod.fst) := by
        rw [← h3]; exact List.mem_map.2 ⟨c, hc, rfl⟩
      have hk1 : c.Name ∈ row.map Prod.fst := (sortKeys_perm _).mem_iff.1 hk
      obtain ⟨kv, hkv, hname⟩ := List.mem_map.1 hk1
      rw [← hname]
      exact hnames kv hkv
    have := header_roundtrip tbl htne hclean
    rw [h3] at this
    exact this

/-! ### Type tags of a header -/

theorem no_newline_of_ge {c : Char} (h : 32 ≤ c.toNat) : c ≠ '\n' ∧ c ≠ '\r' := by
  constructor <;> (rintro rfl; revert h; decide)

theorem isDigit_ge {c : Char} (h : isDigit c = true) : 32 ≤ c.toNat := by
  simp only [isDigit, Bool.and_eq_true, decide_eq_true_eq] at h
  omega

theorem hexDigit_ge (n : Nat) : 32 ≤ (hexDigit (n % 16)).toNat :=
  (hexDigit_safe (n % 16) (Nat.mod_lt _ (by decide))).1

theorem appendChar_ge (c : Char) : ∀ x ∈ appendChar c, 32 ≤ x.toNat := by
  intro x hx
  unfold appendChar at hx
  split_ifs at hx with h1 h2 h3 h4 h5 h6 h7 h8
  · simp only [List.mem_cons, List.mem_singleton, List.not_mem_nil, or_false] at hx
    rcases hx with rfl | rfl
    · decide
    · rcases h1 with rfl | rfl <;> decide
  · simp only [List.mem_cons, List.mem_singleton, List.not_mem_nil, or_false] at hx
    rcases hx with rfl | rfl <;> decide
  · simp only [List.mem_cons, List.mem_singleton, List.not_mem_nil, or_false] at hx
    rcases hx with rfl | rfl <;> decide
  · simp only [List.mem_cons, List.mem_singleton, List.not_mem_nil, or_false] at hx
    rcases hx with rfl | rfl <;> decide
  · simp only [List.mem_cons, List.mem_singleton, List.not_mem_nil, or_false] at hx
    rcases hx with rfl | rfl <;> decide
  · simp only [List.mem_cons, List.mem_singleton, List.not_mem_nil, or_false] at hx
    rcases hx with rfl | rfl <;> decide
  · have hlt : c.toNat < 128 := by
      rcases h7 with h | rfl | rfl | rfl
      · omega
      all_goals decide
    have e1 := hexDigit_ge (c.toNat / 16)
    have e2 := hexDigit_ge c.toNat
    rw [Nat.mod_eq_of_lt (by omega : c.toNat / 16 < 16)] at e1
    simp only [List.mem_cons, List.mem_singleton, List.not_mem_nil, or_false] at hx
    rcases hx with rfl | rfl | rfl | rfl | rfl | rfl
    · decide
    · decide
    · decide
    · decide
    · exact e1
    · exact e2
  · have e2 := hexDigit_ge c.toNat
    simp only [List.mem_cons, List.mem_singleton, List.not_mem_nil, or_false] at hx
    rcases hx with rfl | rfl | rfl | rfl | rfl | rfl
    · decide
    · decide
    · decide
    · decide
    · decide
    · exact e2
  · simp only [List.mem_singleton] at hx
    subst hx
    have : ¬ x.toNat < 32 := fun h => h7 (Or.inl h)
    omega

theorem appendString_ge (s : GoString) : ∀ x ∈ appendString s, 32 ≤ x.toNat := by
  intro x hx
  simp only [appendString, List.mem_cons, List.mem_append, List.mem_flatMap,
    List.mem_singleton, List.not_mem_nil, or_false] at hx
  rcases hx with rfl | ⟨c, _, hc⟩ | rfl
  · decide
  · exact appendChar_ge c x hc
  · decide

theorem formatInt_ge (n : Int) : ∀ x ∈ formatInt n, 32 ≤ x.toNat := by
  intro x hx
  obtain ⟨c, cs, hc, hall, _⟩ := formatNat_shape n.natAbs
  unfold formatInt at hx
  split at hx
  · rcases List.mem_cons.1 hx with rfl | hx
    · decide
    · rw [hc] at hx; exact isDigit_ge (hall x hx)
  · rw [hc] at hx; exact isDigit_ge (hall x hx)

theorem hexBytes_ge (bs : List Nat) : ∀ c ∈ bs.flatMap hexByte, 32 ≤ c.toNat := by
  intro c hc
  obtain ⟨b, _, hcb⟩ := List.mem_flatMap.1 hc
  simp only [hexByte, List.mem_cons, List.mem_singleton, List.not_mem_nil, or_false] at hcb
  rcases hcb with rfl | rfl
  · exact hexDigit_ge (b / 16)
  · exact hexDigit_ge b

theorem uuidString_ge (u : UUID) : ∀ c ∈ u.String, 32 ≤ c.toNat := by
  intro c hc
  have hy : 32 ≤ ('-' : Char).toNat := by decide
  unfold UUID.String at hc
  simp only [List.append_assoc, List.cons_append] at hc
  rcases List.mem_append.1 hc with h | h
  · exact hexBytes_ge _ c h
  rcases List.mem_cons.1 h with rfl | h
  · exact hy
  rcases List.mem_append.1 h with h | h
  · exact hexBytes_ge _ c h
  rcases List.mem_cons.1 h with rfl | h
  · exact hy
  rcases List.mem_append.1 h with h | h
  · exact hexBytes_ge _ c h
  rcases List.mem_cons.1 h with rfl | h
  · exact hy
  rcases List.mem_append.1 h with h | h
  · exact hexBytes_ge _ c h
  rcases List.mem_cons.1 h with rfl | h
  · exact hy
  exact hexBytes_ge _ c h

/-- The encoding of a value of the six kinds, or of the nil interface, holds
no line feed and no carriage return, the library texts holding none. -/
theorem marshalValue_one_line (L : Lib)
    (hfloat : ∀ f, ∀ c ∈ L.formatFloat f, c ≠ '\n' ∧ c ≠ '\r')
    (htime : ∀ t s, L.formatTime t = some s → ∀ c ∈ s, c ≠ '\n' ∧ c ≠ '\r')
    (v : Value) (e : GoString) (hv : v.supported = true ∨ v = Value.null)
    (h : marshalValue L v = some e) : ∀ c ∈ e, c ≠ '\n' ∧ c ≠ '\r' := by
  intro c hc
  cases v with
  | bool b =>
    simp only [marshalValue, Option.some.injEq] at h
    subst h
    cases b
    · simp only [Bool.false_eq_true, if_false] at hc
      revert c; decide
    · simp only [if_true] at hc
      revert c; decide
  | int n =>
    simp only [marshalValue, Option.some.injEq] at h
    subst h
    exact no_newline_of_ge (formatInt_ge n c hc)
  | str s =>
    simp only [marshalValue, Option.some.injEq] at h
    subst h
    exact no_newline_of_ge (appendString_ge s c hc)
  | float f =>
    simp only [marshalValue] at h
    split at h
    · cases h
    · simp only [Option.some.injEq] at h
      subst h
      exact hfloat f c hc
  | time t =>
    simp only [marshalValue] at h
    cases hs : L.formatTime t with
    | none => rw [hs] at h; cases h
    | some s =>
      rw [hs] at h
      simp only [Option.some.injEq] at h
      subst h
      simp only [List.mem_cons, List.mem_append, List.mem_singleton, List.not_mem_nil,
        or_false] at hc
      rcases hc with rfl | hc | rfl
      · decide
      · exact htime t s hs c hc
      · decide
  | uuid u =>
    simp only [marshalValue, Option.some.injEq] at h
    subst h
    simp only [List.mem_cons, List.mem_append, List.mem_singleton, List.not_mem_nil,
      or_false] at hc
    rcases hc with rfl | hc | rfl
    · decide
    · exact no_newline_of_ge (uuidString_ge u c hc)
    · decide
  | null =>
    simp only [marshalValue, Option.some.injEq] at h
    subst h
    revert c; decide
  | other a b =>
    rcases hv with hv | hv
    · simp [Value.supported] at hv
    · cases hv

theorem mem_Join (es : List GoString) (sep : GoString) (c : Char) (hc : c ∈ Join es sep) :
    c ∈ sep ∨ ∃ e ∈ es, c ∈ e := by
  induction es with
  | nil => simp [Join, List.intercalate] at hc
  | cons e es ih =>
    cases es with
    | nil =>
      rw [Join_singleton] at hc
      exact Or.inr ⟨e, List.mem_cons_self _ _, hc⟩
    | cons e2 es =>
      rw [Join_cons_cons] at hc
      rcases List.mem_append.1 hc with hc | hc
      · rcases List.mem_append.1 hc with hc | hc
        · exact Or.inr ⟨e, List.mem_cons_self _ _, hc⟩
        · exact Or.inl hc
      · rcases ih hc with h | ⟨x, hx, hcx⟩
        · exact Or.inl h
        · exact Or.inr ⟨x, List.mem_cons_of_mem _ hx, hcx⟩

theorem marshalValues_inv (L : Lib) (vals : List Value) :
    ∀ es, marshalValues L vals = some es →
      List.Forall₂ (fun v e => marshalValue L v = some e) vals es := by
  induction vals with
  | nil =>
    intro es h
    simp only [marshalValues, Option.some.injEq] at h
    subst h
    exact List.Forall₂.nil
  | cons v vs ih =>
    intro es h
    unfold marshalValues at h
    cases hv : marshalValue L v with
    | none => rw [hv] at h; cases h
    | some e =>
      rw [hv] at h
      simp only at h
      cases hvs : marshalValues L vs with
      | none => rw [hvs] at h; cases h
      | some es1 =>
        rw [hvs] at h
        simp only [Option.some.injEq] at h
        subst h
        exact List.Forall₂.cons hv (ih es1 hvs)

/-- The line `serializeRow` returns is the array of the encodings of the values
`row[k]`, one for each key, in the order of the keys. -/
theorem serializeRow_inv (L : Lib) (row : Row) (keys : List GoString) (line : GoString)
    (h : serializeRow L row keys = .ok line) :
    ∃ es, es.length = keys.length
      ∧ List.Forall₂ (fun k e => marshalValue L (row.get k) = some e) keys es
      ∧ line = '[' :: (Join es ",".toList ++ [']']) := by
  unfold serializeRow Marshal at h
  cases hes : marshalValues L (keys.map row.get) with
  | none => rw [hes] at h; cases h
  | some es =>
    rw [hes] at h
    simp only [Except.ok.injEq] at h
    have hF := marshalValues_inv L _ es hes
    rw [List.forall₂_map_left_iff] at hF
    exact ⟨es, hF.length_eq.symm, hF, h.symm⟩

/-- C15. For every row of supported values and every key list, the line
`serializeRow` returns holds no line feed and no carriage return, the texts the
library writes for floats and times holding none: the characters of a string
value below U+0020, line feed and carriage return among them, are written as
escapes. -/
theorem serializeRow_one_line (L : Lib)
    (hfloat : ∀ f, ∀ c ∈ L.formatFloat f, c ≠ '\n' ∧ c ≠ '\r')
    (htime : ∀ t s, L.formatTime t = some s → ∀ c ∈ s, c ≠ '\n' ∧ c ≠ '\r')
    (row : Row) (keys : List GoString) (line : GoString)
    (hsup : ∀ kv ∈ row, kv.2.supported = true)
    (h : serializeRow L row keys = .ok line) :
    '\n' ∉ line ∧ '\r' ∉ line
    ∧ ∀ s : GoString, '\n' ∉ appendString s ∧ '\r' ∉ appendString s := by
  have hstr : ∀ s : GoString, '\n' ∉ appendString s ∧ '\r' ∉ appendString s := by
    intro s
    constructor
    · intro hm; exact (no_newline_of_ge (appendString_ge s _ hm)).1 rfl
    · intro hm; exact (no_newline_of_ge (appendString_ge s _ hm)).2 rfl
  have hall : ∀ c ∈ line, c ≠ '\n' ∧ c ≠ '\r' := by
    obtain ⟨es, _, hF, rfl⟩ := serializeRow_inv L row keys line h
    intro c hc
    simp only [List.mem_cons, List.mem_append, List.mem_singleton, List.not_mem_nil,
      or_false] at hc
    rcases hc with rfl | hc | rfl
    · decide
    · rcases mem_Join es _ c hc with hsep | ⟨e, he, hce⟩
      · simp only [comma_toList, List.mem_singleton] at hsep
        subst hsep; decide
      · obtain ⟨k, hk⟩ := forall₂_of_mem_right hF e he
        refine marshalValue_one_line L hfloat htime (row.get k) e ?_ hk c hce
        rcases Row.get_mem_or_null row k with hm | hn
        · exact Or.inl (hsup _ hm)
        · exact Or.inr hn
    · decide
  exact ⟨fun hm => (hall _ hm).1 rfl, fun hm => (hall _ hm).2 rfl, hstr⟩

theorem sampleLib_one_line :
    (∀ f, ∀ c ∈ sampleLib.formatFloat f, c ≠ '\n' ∧ c ≠ '\r')
    ∧ ∀ t s, sampleLib.formatTime t = some s → ∀ c ∈ s, c ≠ '\n' ∧ c ≠ '\r' := by
  constructor
  · intro f c hc
    simp only [sampleLib] at hc
    split_ifs at hc <;> (revert c; decide)
  · intro t s hs c hc
    simp only [sampleLib] at hs
    split_ifs at hs
    simp only [Option.some.injEq] at hs
    subst hs
    revert c; decide

/-- The hypotheses of `serializeRow_one_line` hold on the sample data. -/
theorem serializeRow_one_line_witness :
    serializeRow sampleLib sampleRow ["name".toList, "missing".toList]
      = .ok "[\"a\\\"b\\nc\",null]".toList
    ∧ '\n' ∉ "[\"a\\\"b\\nc\",null]".toList ∧ '\r' ∉ "[\"a\\\"b\\nc\",null]".toList :=
  ⟨by decide,
    (serializeRow_one_line sampleLib sampleLib_one_line.1 sampleLib_one_line.2 sampleRow
      ["name".toList, "missing".toList] "[\"a\\\"b\\nc\",null]".toList (by decide)
      (by decide)).1,
    (serializeRow_one_line sampleLib sampleLib_one_line.1 sampleLib_one_line.2 sampleRow
      ["name".toList, "missing".toList] "[\"a\\\"b\\nc\",null]".toList (by decide)
      (by decide)).2.1⟩

/-! ### Positional alignment -/

end Cscopy
